import Mathlib

/-!
Verification of the unused-symbol ("dead code") scanner and line-range remover
of the what-the-code repository (src/analyzeDeadCode.ts and the DeadCodeRemover
module).  File contents are modelled as `List Char`; the JavaScript regular
expressions used by the scanner are embedded via a small backtracking matcher
(`Rx` / `matchRx`) whose alternation order, greediness and word-boundary
semantics follow the JS engine for the pattern shapes the scanner uses.
-/

set_option autoImplicit false

/-- The character code 123, an opening curly brace. -/
def lbr : Char := Char.ofNat 123

/-- The character code 125, a closing curly brace. -/
def rbr : Char := Char.ofNat 125

/-- The character code 39, a single quote, used in finding descriptions. -/
def sqc : Char := Char.ofNat 39

/-- JS `\s` for the character ranges relevant to source files. -/
def jsSpace (c : Char) : Bool :=
  c = ' ' || c = '\t' || c = '\n' || c = '\r' || c = Char.ofNat 11 || c = Char.ofNat 12

/-- JS `\w`, the word characters used by the `\b` word-boundary assertion. -/
def wordChar (c : Char) : Bool :=
  c.isAlpha || c.isDigit || c = '_'

/-- First character of a JS identifier: `[a-zA-Z_$]`. -/
def idStart (c : Char) : Bool :=
  c.isAlpha || c = '_' || c = '$'

/-- Subsequent character of a JS identifier: `[a-zA-Z0-9_$]`. -/
def idChar (c : Char) : Bool :=
  c.isAlpha || c.isDigit || c = '_' || c = '$'

/-- Substring test, the model of JS `String.prototype.includes`. -/
def containsSub (l pat : List Char) : Bool :=
  if pat.isPrefixOf l then true
  else
    match l with
    | [] => false
    | _ :: t => containsSub t pat

/-- Split on a separator character, the model of JS `String.prototype.split`. -/
def splitOnChar (sep : Char) : List Char → List (List Char)
  | [] => [[]]
  | c :: cs =>
    let r := splitOnChar sep cs
    if c = sep then [] :: r
    else
      match r with
      | h :: t => (c :: h) :: t
      | [] => [[c]]

/-- Join lines with a newline, the model of JS `Array.prototype.join('\n')`. -/
def joinNl : List (List Char) → List Char
  | [] => []
  | [l] => l
  | l :: ls => l ++ '\n' :: joinNl ls

/-- Remove trailing characters satisfying `p`. -/
def dropEnd (p : Char → Bool) (l : List Char) : List Char :=
  ((l.reverse).dropWhile p).reverse

/-- The model of JS `String.prototype.trim`. -/
def jsTrim (l : List Char) : List Char :=
  dropEnd jsSpace (l.dropWhile jsSpace)

/-- Count newline characters, used to turn a match index into a line number. -/
def countNl (l : List Char) : Nat :=
  l.count '\n'

/-- Regular-expression ASTs covering the pattern shapes used by the scanner:
literals, character classes, sequencing, prioritized alternation, greedy
option, greedy and lazy repetition of a character class, capture groups, the
multiline `^` and `$` anchors and the `\b` word boundary. -/
inductive Rx where
  | eps : Rx
  | lit : List Char → Rx
  | cls : (Char → Bool) → Rx
  | seq : Rx → Rx → Rx
  | alt : Rx → Rx → Rx
  | opt : Rx → Rx
  | star : (Char → Bool) → Rx
  | lazyStar : (Char → Bool) → Rx
  | plus : (Char → Bool) → Rx
  | grp : Nat → Rx → Rx
  | bol : Rx
  | eol : Rx
  | wb : Rx

/-- Capture list: group number paired with the captured characters. -/
abbrev Caps := List (Nat × List Char)

/-- All splits of a leading run of characters satisfying `p`, shortest first. -/
def splitsAsc (p : Char → Bool) : List Char → List (List Char × List Char)
  | [] => [([], [])]
  | c :: cs =>
    ([], c :: cs) ::
      (if p c then (splitsAsc p cs).map (fun q => (c :: q.1, q.2)) else [])

/-- The character just before the current position after consuming `cs`. -/
def lastOr (prev : Option Char) (cs : List Char) : Option Char :=
  match cs.getLast? with
  | some c => some c
  | none => prev

/-- Word-character test on an optional boundary character. -/
def isWordB : Option Char → Bool
  | some c => wordChar c
  | none => false

/-- Backtracking matcher.  Given the previous character (for `^` and `\b`) and
the remaining input, returns every way the pattern can match a prefix of the
input as `(consumed, rest, captures)` triples in JS priority order (leftmost
alternative first, greedy repetitions longest first). -/
def matchRx : Rx → Option Char → List Char → List (List Char × List Char × Caps)
  | .eps, _, rest => [([], rest, [])]
  | .lit s, _, rest =>
    if s.isPrefixOf rest then [(s, rest.drop s.length, [])] else []
  | .cls p, _, rest =>
    match rest with
    | [] => []
    | c :: cs => if p c then [([c], cs, [])] else []
  | .seq a b, prev, rest =>
    (matchRx a prev rest).flatMap fun r =>
      (matchRx b (lastOr prev r.1) r.2.1).map fun q =>
        (r.1 ++ q.1, q.2.1, r.2.2 ++ q.2.2)
  | .alt a b, prev, rest => matchRx a prev rest ++ matchRx b prev rest
  | .opt a, prev, rest => matchRx a prev rest ++ [([], rest, [])]
  | .star p, _, rest => ((splitsAsc p rest).reverse).map fun q => (q.1, q.2, [])
  | .lazyStar p, _, rest => (splitsAsc p rest).map fun q => (q.1, q.2, [])
  | .plus p, _, rest =>
    match rest with
    | [] => []
    | c :: cs =>
      if p c then ((splitsAsc p cs).reverse).map fun q => (c :: q.1, q.2, [])
      else []
  | .grp n a, prev, rest =>
    (matchRx a prev rest).map fun r => (r.1, r.2.1, (n, r.1) :: r.2.2)
  | .bol, prev, rest =>
    if prev = none || prev = some '\n' then [([], rest, [])] else []
  | .eol, _, rest =>
    if rest.isEmpty || rest.head? = some '\n' then [([], rest, [])] else []
  | .wb, prev, rest =>
    if isWordB prev != isWordB rest.head? then [([], rest, [])] else []

/-- One regex match: start index, consumed characters and captures. -/
structure MatchInfo where
  idx : Nat
  consumed : List Char
  caps : Caps
  deriving Repr, DecidableEq

/-- Scan forward for the leftmost match, as the JS engine does for `exec`.
Also returns the previous-character state and remaining input after the
match so that the global-scan loop can continue. -/
def execFrom (rx : Rx) : Option Char → List Char → Nat →
    Option (MatchInfo × Option Char × List Char)
  | prev, rest, idx =>
    match matchRx rx prev rest with
    | r :: _ => some (⟨idx, r.1, r.2.2⟩, lastOr prev r.1, r.2.1)
    | [] =>
      match rest with
      | [] => none
      | c :: cs => execFrom rx (some c) cs (idx + 1)

/-- Fueled loop behind `execAll`. -/
def execAllAux (rx : Rx) : Nat → Option Char → List Char → Nat → List MatchInfo
  | 0, _, _, _ => []
  | fuel + 1, prev, rest, idx =>
    match execFrom rx prev rest idx with
    | none => []
    | some (m, prev2, rest2) =>
      if m.consumed.isEmpty then
        match rest2 with
        | [] => [m]
        | c :: cs => m :: execAllAux rx fuel (some c) cs (m.idx + 1)
      else m :: execAllAux rx fuel prev2 rest2 (m.idx + m.consumed.length)

/-- All matches of a global (`/g`) regex over the content, in order.  This is
the model of the scanner's `while ((match = re.exec(content)) !== null)` loops
(the scanner resets `lastIndex` before each file, so every loop starts fresh). -/
def execAll (rx : Rx) (content : List Char) : List MatchInfo :=
  execAllAux rx (content.length + 1) none content 0

/-- Fueled loop behind `replaceAll`. -/
def replaceAllAux (rx : Rx) : Nat → Option Char → List Char → List Char
  | 0, _, rest => rest
  | fuel + 1, prev, rest =>
    match matchRx rx prev rest with
    | r :: _ =>
      if r.1.isEmpty then
        match rest with
        | [] => []
        | c :: cs => c :: replaceAllAux rx fuel (some c) cs
      else replaceAllAux rx fuel (lastOr prev r.1) r.2.1
    | [] =>
      match rest with
      | [] => []
      | c :: cs => c :: replaceAllAux rx fuel (some c) cs

/-- Delete every match of the regex, the model of
`content.replace(re, '')` with a global regex. -/
def replaceAll (rx : Rx) (content : List Char) : List Char :=
  replaceAllAux rx (content.length + 1) none content

/-- The model of `re.test(content)` on a freshly reset regex. -/
def rxTest (rx : Rx) (content : List Char) : Bool :=
  (execFrom rx none content 0).isSome

/-- Sequence a list of regexes. -/
def rseq (l : List Rx) : Rx :=
  l.foldr Rx.seq .eps

/-- `(?:^|\s)` with the `m` flag, the leading context of several patterns. -/
def bolOrSpace : Rx :=
  .alt .bol (.cls jsSpace)

/-- A captured JS identifier `([a-zA-Z_$][a-zA-Z0-9_$]*)` in group `n`. -/
def identRx (n : Nat) : Rx :=
  .grp n (rseq [.cls idStart, .star idChar])

/-- `(?:const|let|var)`. -/
def kwRx : Rx :=
  .alt (.lit "const".data) (.alt (.lit "let".data) (.lit "var".data))

/-- A quote character, `['"]`. -/
def isQuote (c : Char) : Bool :=
  c = sqc || c = '"'

/-- The character class `[^,{}\s]` of the default-import capture. -/
def notBraceCommaSpace (c : Char) : Bool :=
  !(c = ',' || c = lbr || c = rbr || jsSpace c)

/-- The character class `[^\s]` of the namespace-import capture. -/
def notSpace (c : Char) : Bool :=
  !jsSpace c

/-- The scanner's `importRegex`:
`import\s+(?:\{([^}]*)\}|([^,{}\s]+)|\*\s+as\s+([^\s]+))?\s*from\s*['"]([^'"]+)['"]`. -/
def importRx : Rx :=
  rseq [.lit "import".data, .plus jsSpace,
    .opt (.alt
      (rseq [.lit [lbr], .grp 1 (.star (fun c => c ≠ rbr)), .lit [rbr]])
      (.alt
        (.grp 2 (.plus notBraceCommaSpace))
        (rseq [.lit ['*'], .plus jsSpace, .lit "as".data, .plus jsSpace,
          .grp 3 (.plus notSpace)]))),
    .star jsSpace, .lit "from".data, .star jsSpace,
    .cls isQuote, .grp 4 (.plus (fun c => !isQuote c)), .cls isQuote]

/-- The scanner's `functionRegex`: `(?:^|\s)function\s+([a-zA-Z_$][a-zA-Z0-9_$]*)\s*\(`. -/
def functionRx : Rx :=
  rseq [bolOrSpace, .lit "function".data, .plus jsSpace, identRx 1,
    .star jsSpace, .lit "(".data]

/-- The scanner's `arrowFunctionRegex`:
`(?:^|\s)(?:const|let|var)\s+([a-zA-Z_$][a-zA-Z0-9_$]*)\s*=\s*(?:async\s+)?\([^)]*\)\s*=>`. -/
def arrowFunctionRx : Rx :=
  rseq [bolOrSpace, kwRx, .plus jsSpace, identRx 1, .star jsSpace, .lit "=".data,
    .star jsSpace, .opt (rseq [.lit "async".data, .plus jsSpace]),
    .lit "(".data, .star (fun c => c ≠ ')'), .lit ")".data,
    .star jsSpace, .lit "=>".data]

/-- The scanner's `variableRegex`: `(?:^|\s)(?:const|let|var)\s+([a-zA-Z_$][a-zA-Z0-9_$]*)\s*=`. -/
def variableRx : Rx :=
  rseq [bolOrSpace, kwRx, .plus jsSpace, identRx 1, .star jsSpace, .lit "=".data]

/-- The scanner's `componentRegex`: `(?:^|\s)(?:function\s+|const\s+)([A-Z][a-zA-Z0-9_$]*)\s*(?:\(|=)`. -/
def componentRx : Rx :=
  rseq [bolOrSpace,
    .alt (rseq [.lit "function".data, .plus jsSpace])
         (rseq [.lit "const".data, .plus jsSpace]),
    .grp 1 (rseq [.cls (fun c => c.isUpper), .star idChar]),
    .star jsSpace, .alt (.lit "(".data) (.lit "=".data)]

/-- The scanner's `exportRegex`:
`export\s+(?:default\s+)?(?:function\s+|const\s+|class\s+|interface\s+|type\s+)?([a-zA-Z_$][a-zA-Z0-9_$]*)`. -/
def exportRx : Rx :=
  rseq [.lit "export".data, .plus jsSpace,
    .opt (rseq [.lit "default".data, .plus jsSpace]),
    .opt (.alt (rseq [.lit "function".data, .plus jsSpace])
      (.alt (rseq [.lit "const".data, .plus jsSpace])
        (.alt (rseq [.lit "class".data, .plus jsSpace])
          (.alt (rseq [.lit "interface".data, .plus jsSpace])
            (rseq [.lit "type".data, .plus jsSpace]))))),
    identRx 1]

/-- `^import.*$` with flags `gm`, used by `isImportUsed` to blank out import lines. -/
def importLineRx : Rx :=
  rseq [.bol, .lit "import".data, .star (fun c => c ≠ '\n'), .eol]

/-- `\bNAME\b` for a literal (regex-escaped) name. -/
def wordRx (nm : List Char) : Rx :=
  rseq [.wb, .lit nm, .wb]

/-- `(?:^|\s)function\s+NAME\s*\([^{]*\{`, the function-definition header
removed by `isFunctionUsed` before searching for call sites. -/
def funcDefRx (nm : List Char) : Rx :=
  rseq [bolOrSpace, .lit "function".data, .plus jsSpace, .lit nm,
    .star jsSpace, .lit "(".data, .star (fun c => c ≠ lbr), .lit [lbr]]

/-- `(?:^|\s)(?:const|let|var)\s+NAME\s*=`, the binding header removed by
`isFunctionUsed` before searching for call sites. -/
def varDeclHeadRx (nm : List Char) : Rx :=
  rseq [bolOrSpace, kwRx, .plus jsSpace, .lit nm, .star jsSpace, .lit "=".data]

/-- `\bNAME\s*\(`, a call site of the function. -/
def funcCallRx (nm : List Char) : Rx :=
  rseq [.wb, .lit nm, .star jsSpace, .lit "(".data]

/-- `(?:^|\s)(?:const|let|var)\s+NAME\s*=.*?[;\n]`, the whole declaration
removed by `isVariableUsed` before searching for uses. -/
def varDeclFullRx (nm : List Char) : Rx :=
  rseq [bolOrSpace, kwRx, .plus jsSpace, .lit nm, .star jsSpace, .lit "=".data,
    .lazyStar (fun c => c ≠ '\n'), .cls (fun c => c = ';' || c = '\n')]

/-- `<NAME[\s>/<]`, a JSX use of the component. -/
def jsxRx (nm : List Char) : Rx :=
  rseq [.lit "<".data, .lit nm,
    .cls (fun c => jsSpace c || c = '>' || c = '/' || c = '<')]

/-- `(?:^|\s)(?:function\s+|const\s+)NAME\s*`, the component declaration header
removed by `isComponentUsed` before searching for identifier uses. -/
def compDeclRx (nm : List Char) : Rx :=
  rseq [bolOrSpace,
    .alt (rseq [.lit "function".data, .plus jsSpace])
         (rseq [.lit "const".data, .plus jsSpace]),
    .lit nm, .star jsSpace]

/-- Finding confidence, from the `DeadCodeIssue` interface. -/
inductive Confidence where
  | high | medium | low
  deriving Repr, DecidableEq

/-- Finding kind, from the `DeadCodeIssue` interface. -/
inductive IssueType where
  | unusedFunction | unusedVariable | unusedImport | unusedComponent | unusedRoute
  deriving Repr, DecidableEq

/-- Finding category, from the `DeadCodeIssue` interface. -/
inductive IssueCategory where
  | deadCode | rarelyUsed | testOnly
  deriving Repr, DecidableEq

/-- The `DeadCodeIssue` record produced by the scanner and consumed by the
remover.  Text fields are character lists; `line` is a JS number. -/
structure Issue where
  type : IssueType
  filePath : List Char
  relativePath : List Char
  line : Int
  column : Int
  name : List Char
  description : List Char
  confidence : Confidence
  category : IssueCategory
  deriving Repr, DecidableEq

/-- Wrap a name in single quotes, as the description templates do. -/
def quoted (s : List Char) : List Char :=
  sqc :: (s ++ [sqc])

/-- Line number (1-based) of the character index `idx` in `content`, computed
as `content.substring(0, match.index).split('\n').length`. -/
def lineNumberAt (content : List Char) (idx : Nat) : Int :=
  (countNl (content.take idx) : Int) + 1

/-- `isImportUsed`: blank out every line starting with `import`, then test for
the bare name as a whole word; an empty (trimmed) name counts as used. -/
def isImportUsed (importName content : List Char) : Bool :=
  let cleanName := jsTrim importName
  if cleanName = [] then true
  else rxTest (wordRx cleanName) (replaceAll importLineRx content)

/-- `isFunctionUsed`: exported-looking files with the name anywhere count as
used; otherwise remove the definition headers and look for a call site. -/
def isFunctionUsed (functionName content : List Char) : Bool :=
  let cleanName := jsTrim functionName
  if cleanName = [] then true
  else
    let isExported := rxTest exportRx content && containsSub content cleanName
    if isExported then true
    else
      let withoutDefinition :=
        replaceAll (varDeclHeadRx cleanName) (replaceAll (funcDefRx cleanName) content)
      rxTest (funcCallRx cleanName) withoutDefinition

/-- `isVariableUsed`: remove the whole declaration, then look for the bare
name as a whole word. -/
def isVariableUsed (variableName content : List Char) : Bool :=
  let cleanName := jsTrim variableName
  if cleanName = [] then true
  else rxTest (wordRx cleanName) (replaceAll (varDeclFullRx cleanName) content)

/-- `isComponentUsed`: exported-looking files with the name anywhere count as
used; otherwise look for a JSX tag, or the bare name with the declaration
header removed. -/
def isComponentUsed (componentName content : List Char) : Bool :=
  let cleanName := jsTrim componentName
  if cleanName = [] then true
  else
    let isExported := rxTest exportRx content && containsSub content cleanName
    if isExported then true
    else
      rxTest (jsxRx cleanName) content ||
        rxTest (wordRx cleanName) (replaceAll (compDeclRx cleanName) content)

/-- Look up a capture group. -/
def capLookup (caps : Caps) (n : Nat) : Option (List Char) :=
  match caps.find? (fun p => p.1 = n) with
  | some p => some p.2
  | none => none

/-- Capture group with JS `match[n] || ''` semantics. -/
def capStr (caps : Caps) (n : Nat) : List Char :=
  (capLookup caps n).getD []

/-- The trimmed, non-empty names of one `{...}` named-import capture:
`namedImports.split(',').map(imp => imp.trim()).filter(Boolean)`. -/
def namedImportNames (namedImports : List Char) : List (List Char) :=
  ((splitOnChar ',' namedImports).map jsTrim).filter (fun s => s ≠ [])

/-- Findings pushed for the named imports of one import match. -/
def namedImportIssues (content fp rp : List Char) (lineNumber : Int)
    (namedImports modulePath : List Char) : List Issue :=
  if namedImports = [] then []
  else
    (namedImportNames namedImports).filterMap fun nm =>
      if isImportUsed nm content then none
      else
        some { type := .unusedImport, filePath := fp, relativePath := rp,
               line := lineNumber, column := 1, name := nm,
               description := "Unused named import ".data ++ quoted nm ++
                 " from ".data ++ quoted modulePath,
               confidence := .high, category := .deadCode }

/-- Finding pushed for the default import of one import match, when present. -/
def defaultImportIssues (content fp rp : List Char) (lineNumber : Int)
    (defaultImport : Option (List Char)) (modulePath : List Char) : List Issue :=
  match defaultImport with
  | none => []
  | some d =>
    if d = [] then []
    else if isImportUsed d content then []
    else
      [{ type := .unusedImport, filePath := fp, relativePath := rp,
         line := lineNumber, column := 1, name := d,
         description := "Unused default import ".data ++ quoted d ++
           " from ".data ++ quoted modulePath,
         confidence := .high, category := .deadCode }]

/-- Finding pushed for the namespace import of one import match, when present. -/
def namespaceImportIssues (content fp rp : List Char) (lineNumber : Int)
    (namespaceImport : Option (List Char)) (modulePath : List Char) : List Issue :=
  match namespaceImport with
  | none => []
  | some n =>
    if n = [] then []
    else if isImportUsed n content then []
    else
      [{ type := .unusedImport, filePath := fp, relativePath := rp,
         line := lineNumber, column := 1, name := n,
         description := "Unused namespace import ".data ++ quoted n ++
           " from ".data ++ quoted modulePath,
         confidence := .high, category := .deadCode }]

/-- `findUnusedImports`: loop over `importRegex` matches and push findings for
each captured import name that fails the usage check. -/
def findUnusedImports (content fp rp : List Char) : List Issue :=
  (execAll importRx content).flatMap fun m =>
    let lineNumber := lineNumberAt content m.idx
    let namedImports := capStr m.caps 1
    let defaultImport := capLookup m.caps 2
    let namespaceImport := capLookup m.caps 3
    let modulePath := capStr m.caps 4
    namedImportIssues content fp rp lineNumber namedImports modulePath ++
      defaultImportIssues content fp rp lineNumber defaultImport modulePath ++
      namespaceImportIssues content fp rp lineNumber namespaceImport modulePath

/-- All import names the scanner captures and usage-checks for a file:
each named import, the default name and the namespace name of every match. -/
def importCapturedNames (content : List Char) : List (List Char) :=
  (execAll importRx content).flatMap fun m =>
    (if capStr m.caps 1 = [] then [] else namedImportNames (capStr m.caps 1)) ++
      ((capLookup m.caps 2).toList.filter (fun d => d ≠ [])) ++
      ((capLookup m.caps 3).toList.filter (fun d => d ≠ []))

/-- `findUnusedFunctions`: the `functionRegex` loop followed by the
`arrowFunctionRegex` loop. -/
def findUnusedFunctions (content fp rp : List Char) : List Issue :=
  ((execAll functionRx content).filterMap fun m =>
    let functionName := capStr m.caps 1
    if isFunctionUsed functionName content then none
    else
      some { type := .unusedFunction, filePath := fp, relativePath := rp,
             line := lineNumberAt content m.idx, column := 1, name := functionName,
             description := "Function ".data ++ quoted functionName ++
               " appears to be unused".data,
             confidence := .medium, category := .deadCode }) ++
  ((execAll arrowFunctionRx content).filterMap fun m =>
    let functionName := capStr m.caps 1
    if isFunctionUsed functionName content then none
    else
      some { type := .unusedFunction, filePath := fp, relativePath := rp,
             line := lineNumberAt content m.idx, column := 1, name := functionName,
             description := "Arrow function ".data ++ quoted functionName ++
               " appears to be unused".data,
             confidence := .medium, category := .deadCode })

/-- `findUnusedVariables`: the `variableRegex` loop. -/
def findUnusedVariables (content fp rp : List Char) : List Issue :=
  (execAll variableRx content).filterMap fun m =>
    let variableName := capStr m.caps 1
    if isVariableUsed variableName content then none
    else
      some { type := .unusedVariable, filePath := fp, relativePath := rp,
             line := lineNumberAt content m.idx, column := 1, name := variableName,
             description := "Variable ".data ++ quoted variableName ++
               " appears to be unused".data,
             confidence := .medium, category := .deadCode }

/-- `findUnusedComponents`: the `componentRegex` loop. -/
def findUnusedComponents (content fp rp : List Char) : List Issue :=
  (execAll componentRx content).filterMap fun m =>
    let componentName := capStr m.caps 1
    if isComponentUsed componentName content then none
    else
      some { type := .unusedComponent, filePath := fp, relativePath := rp,
             line := lineNumberAt content m.idx, column := 1, name := componentName,
             description := "React component ".data ++ quoted componentName ++
               " appears to be unused".data,
             confidence := .medium, category := .deadCode }

/-- `analyzeJavaScriptFile`: imports, then functions, then variables. -/
def analyzeJavaScriptFile (content fp rp : List Char) : List Issue :=
  findUnusedImports content fp rp ++ findUnusedFunctions content fp rp ++
    findUnusedVariables content fp rp

/-- `analyzeReactFile`: components, then the JavaScript analysis. -/
def analyzeReactFile (content fp rp : List Char) : List Issue :=
  findUnusedComponents content fp rp ++ analyzeJavaScriptFile content fp rp

/-- `isCSSClassUsed`: a declared-but-unimplemented stub returning `true`. -/
def isCSSClassUsed (_className _cssFilePath : List Char) : Bool :=
  true

/-- `isCSSIdUsed`: a declared-but-unimplemented stub returning `true`. -/
def isCSSIdUsed (_idName _cssFilePath : List Char) : Bool :=
  true

/-- CSS class selector pattern `\.([a-zA-Z_-][a-zA-Z0-9_-]*)\s*\{`. -/
def cssClassRx : Rx :=
  rseq [.lit ".".data,
    .grp 1 (rseq [.cls (fun c => c.isAlpha || c = '_' || c = '-'),
      .star (fun c => c.isAlpha || c.isDigit || c = '_' || c = '-')]),
    .star jsSpace, .lit [lbr]]

/-- CSS id selector pattern `#([a-zA-Z_-][a-zA-Z0-9_-]*)\s*\{`. -/
def cssIdRx : Rx :=
  rseq [.lit "#".data,
    .grp 1 (rseq [.cls (fun c => c.isAlpha || c = '_' || c = '-'),
      .star (fun c => c.isAlpha || c.isDigit || c = '_' || c = '-')]),
    .star jsSpace, .lit [lbr]]

/-- `findUnusedCSSSelectors`: loops over class and id selectors, but the usage
stubs always answer `true`, so no CSS finding is ever emitted. -/
def findUnusedCSSSelectors (content fp _rp : List Char) : List Issue :=
  ((execAll cssClassRx content).filterMap fun m =>
    if isCSSClassUsed (capStr m.caps 1) fp then none else none) ++
  ((execAll cssIdRx content).filterMap fun m =>
    if isCSSIdUsed (capStr m.caps 1) fp then none else none)

/-- `analyzeCSSFile`. -/
def analyzeCSSFile (content fp rp : List Char) : List Issue :=
  findUnusedCSSSelectors content fp rp

/-- Node's `path.extname` lowered to lower case: the extension of the basename
from its last dot, empty for dotfiles and extensionless names. -/
def extnameLower (p : List Char) : List Char :=
  let b := ((p.reverse.takeWhile (fun c => c ≠ '/')).reverse)
  let r := b.reverse
  let afterDot := r.takeWhile (fun c => c ≠ '.')
  if b.contains '.' then
    if b.length = afterDot.length + 1 then []
    else ('.' :: afterDot.reverse).map Char.toLower
  else []

/-- `isJavaScriptFile`. -/
def isJavaScriptFile (p : List Char) : Bool :=
  [".js".data, ".ts".data, ".mjs".data].contains (extnameLower p)

/-- `isReactFile`. -/
def isReactFile (p : List Char) : Bool :=
  [".jsx".data, ".tsx".data].contains (extnameLower p)

/-- `isCSSFile`. -/
def isCSSFile (p : List Char) : Bool :=
  [".css".data, ".scss".data, ".sass".data, ".less".data].contains (extnameLower p)

/-- Outcome of the host file read performed by `analyzeFile`: the file may be
missing, reading it (or analyzing it) may raise an exception whose message is
caught, or it yields the file text. -/
inductive FileAccess where
  | missing : FileAccess
  | readError : List Char → FileAccess
  | ok : List Char → FileAccess
  deriving Repr, DecidableEq

/-- The single synthetic finding produced by `analyzeFile`'s catch block. -/
def syntheticErrorIssue (fp rp msg : List Char) : Issue :=
  { type := .unusedVariable, filePath := fp, relativePath := rp,
    line := 1, column := 1, name := "Analysis Error".data,
    description := "Failed to analyze file: ".data ++ msg,
    confidence := .low, category := .deadCode }

/-- `analyzeFile`: guard the paths, return `[]` for missing or blank files,
dispatch on the extension, and convert any caught exception into the single
synthetic finding.  `relativePath` stands for `path.relative(rootPath,
filePath)`, which the host path library computes. -/
def analyzeFile (filePath rootPath relativePath : List Char)
    (access : FileAccess) : List Issue :=
  if filePath = [] || rootPath = [] then []
  else
    match access with
    | .missing => []
    | .readError msg => [syntheticErrorIssue filePath relativePath msg]
    | .ok content =>
      if jsTrim content = [] then []
      else if isJavaScriptFile filePath then analyzeJavaScriptFile content filePath relativePath
      else if isReactFile filePath then analyzeReactFile content filePath relativePath
      else if isCSSFile filePath then analyzeCSSFile content filePath relativePath
      else []

/-- One candidate file of the multi-file run: path, relative path and the
outcome of reading it. -/
structure ScanFile where
  filePath : List Char
  relativePath : List Char
  access : FileAccess
  deriving Repr, DecidableEq

/-- The `DeadCodeFinder` driver loop: analyze each file in order and
accumulate all findings. -/
def analyzeMany (rootPath : List Char) (files : List ScanFile) : List Issue :=
  files.flatMap fun f => analyzeFile f.filePath rootPath f.relativePath f.access

/-- The options driving `removeDeadCode`. -/
structure RemovalOptions where
  createBackup : Bool
  confirmEach : Bool
  onlyHighConfidence : Bool
  dryRun : Bool
  deriving Repr, DecidableEq

/-- The `RemovalResult` returned by `removeDeadCode`. -/
structure RemovalResult where
  success : Bool
  removedCount : Nat
  errors : List (List Char)
  modifiedFiles : List (List Char)
  deriving Repr, DecidableEq

/-- Result of one removal handler: the new content on success, or the
unchanged content plus a reason on failure. -/
inductive StepRes where
  | ok : List Char → StepRes
  | fail : List Char → List Char → StepRes
  deriving Repr, DecidableEq

/-- Content of a `StepRes`. -/
def StepRes.content : StepRes → List Char
  | .ok c => c
  | .fail c _ => c

/-- Split content into lines, `content.split('\n')`. -/
def linesOf (content : List Char) : List (List Char) :=
  splitOnChar '\n' content

/-- `removeUnusedImport`: bounds-check the 1-based line, require the line to
start (trimmed) with `import`, and splice out exactly that line. -/
def removeUnusedImport (lines : List (List Char)) (issue : Issue) : StepRes :=
  let lineIndex : Int := issue.line - 1
  if lineIndex < 0 || (lines.length : Int) ≤ lineIndex then
    .fail (joinNl lines) "Invalid line number".data
  else
    let i := lineIndex.toNat
    let line := lines.getD i []
    if !("import".data.isPrefixOf (jsTrim line)) then
      .fail (joinNl lines) "Line is not an import statement".data
    else .ok (joinNl (lines.take i ++ lines.drop (i + 1)))

/-- `removeUnusedVariable`: bounds-check, require `const/let/var NAME` on the
line and a trimmed trailing `;` or `,`, and splice out exactly that line. -/
def removeUnusedVariable (lines : List (List Char)) (issue : Issue) : StepRes :=
  let lineIndex : Int := issue.line - 1
  if lineIndex < 0 || (lines.length : Int) ≤ lineIndex then
    .fail (joinNl lines) "Invalid line number".data
  else
    let i := lineIndex.toNat
    let line := lines.getD i []
    if (containsSub line ("const ".data ++ issue.name) ||
        containsSub line ("let ".data ++ issue.name) ||
        containsSub line ("var ".data ++ issue.name)) &&
       (match (jsTrim line).getLast? with
        | some c => c = ';' || c = ','
        | none => false) then
      .ok (joinNl (lines.take i ++ lines.drop (i + 1)))
    else .fail (joinNl lines) "Could not safely remove variable".data

/-- One line of `findFunctionEnd`'s character loop: returns whether the brace
counter fired on this line, else the carried `(braceCount, foundOpenBrace)`. -/
def lineScan : List Char → Int → Bool → Bool × Int × Bool
  | [], bal, found => (false, bal, found)
  | c :: cs, bal, found =>
    if c = lbr then lineScan cs (bal + 1) true
    else if c = rbr then
      let bal2 := bal - 1
      if found && bal2 = 0 then (true, bal2, found)
      else lineScan cs bal2 found
    else lineScan cs bal found

/-- Line loop of `findFunctionEnd`. -/
def findFunctionEndAux : List (List Char) → Nat → Int → Bool → Option Nat
  | [], _, _, _ => none
  | l :: ls, i, bal, found =>
    match lineScan l bal found with
    | (true, _, _) => some i
    | (false, st) => findFunctionEndAux ls (i + 1) st.1 st.2

/-- `findFunctionEnd`: from `startIndex`, scan characters counting `{` and
`}`; return the line where the counter returns to zero after an opening brace
was seen, `none` (the source's `-1`) otherwise. -/
def findFunctionEnd (lines : List (List Char)) (startIndex : Nat) : Option Nat :=
  findFunctionEndAux (lines.drop startIndex) startIndex 0 false

/-- `removeUnusedFunction`: bounds-check, find the brace-balanced end line,
and splice out the inclusive line range; fail when no end line exists. -/
def removeUnusedFunction (lines : List (List Char)) (issue : Issue) : StepRes :=
  let lineIndex : Int := issue.line - 1
  if lineIndex < 0 || (lines.length : Int) ≤ lineIndex then
    .fail (joinNl lines) "Invalid line number".data
  else
    let i := lineIndex.toNat
    match findFunctionEnd lines i with
    | none => .fail (joinNl lines) "Could not determine function boundaries".data
    | some e => .ok (joinNl (lines.take i ++ lines.drop (e + 1)))

/-- `removeUnusedComponent` delegates to `removeUnusedFunction`. -/
def removeUnusedComponent (lines : List (List Char)) (issue : Issue) : StepRes :=
  removeUnusedFunction lines issue

/-- `removeIssue`: split the content and dispatch on the finding kind; any
other kind fails with `Unsupported issue type`. -/
def removeIssue (content : List Char) (issue : Issue) : StepRes :=
  let lines := linesOf content
  match issue.type with
  | .unusedImport => removeUnusedImport lines issue
  | .unusedVariable => removeUnusedVariable lines issue
  | .unusedFunction => removeUnusedFunction lines issue
  | .unusedComponent => removeUnusedComponent lines issue
  | .unusedRoute => .fail content "Unsupported issue type: unused-route".data

/-- Per-file accumulator of `processFile`'s finding loop. -/
structure FileProc where
  content : List Char
  removedCount : Nat
  modified : Bool
  errors : List (List Char)
  deriving Repr, DecidableEq

/-- One iteration of `processFile`'s finding loop. -/
def applyStep (st : FileProc) (issue : Issue) : FileProc :=
  match removeIssue st.content issue with
  | .ok c =>
    { st with content := c, removedCount := st.removedCount + 1, modified := true }
  | .fail _ reason =>
    { st with errors := st.errors ++ [issue.name ++ ": ".data ++ reason] }

/-- `processFile`'s finding loop over an already sorted finding list. -/
def applyIssues (content : List Char) (issues : List Issue) : FileProc :=
  issues.foldl applyStep ⟨content, 0, false, []⟩

/-- Stable insertion of a finding into a list sorted by descending line,
the model of `issues.sort((a, b) => b.line - a.line)`. -/
def insertDesc (x : Issue) : List Issue → List Issue
  | [] => [x]
  | y :: ys => if x.line < y.line then y :: insertDesc x ys else x :: y :: ys

/-- Stable sort by descending line number. -/
def sortByLineDesc (issues : List Issue) : List Issue :=
  issues.foldr insertDesc []

/-- The on-disk state: an association of file paths to contents. -/
abbrev FS := List (List Char × List Char)

/-- Read a file. -/
def fsRead (fs : FS) (p : List Char) : Option (List Char) :=
  (fs.find? (fun e => e.1 = p)).map (fun e => e.2)

/-- Write a file, replacing any previous content. -/
def fsWrite : FS → List Char → List Char → FS
  | [], p, c => [(p, c)]
  | e :: es, p, c => if e.1 = p then (p, c) :: es else e :: fsWrite es p c

/-- Apply a list of write events in order. -/
def applyWrites (fs : FS) (ws : List (List Char × List Char)) : FS :=
  ws.foldl (fun f w => fsWrite f w.1 w.2) fs

/-- The backup path `` `${filePath}.backup.${Date.now()}` ``. -/
def backupName (p : List Char) (now : Nat) : List Char :=
  p ++ ".backup.".data ++ Nat.toDigits 10 now

/-- What `processFile` returns and does: counts, the per-finding errors, and
the file writes it performs, in order. -/
structure ProcOut where
  removedCount : Nat
  modified : Bool
  errors : List (List Char)
  writes : List (List Char × List Char)
  deriving Repr, DecidableEq

/-- `DeadCodeRemover.processFile`: read the file (a failed read is caught and
recorded), write the backup when `createBackup` and not `dryRun`, sort the
findings by descending line, run the removal loop, and write the modified
content unless `dryRun`. -/
def processFile (fs : FS) (now : Nat) (path : List Char) (issues : List Issue)
    (opts : RemovalOptions) : ProcOut :=
  match fsRead fs path with
  | none => ⟨0, false, ["File processing error: file read failed".data], []⟩
  | some originalContent =>
    let backupWrites :=
      if opts.createBackup && !opts.dryRun then [(backupName path now, originalContent)]
      else []
    let st := applyIssues originalContent (sortByLineDesc issues)
    let finalWrites :=
      if st.modified && !opts.dryRun then [(path, st.content)] else []
    ⟨st.removedCount, st.modified, st.errors, backupWrites ++ finalWrites⟩

/-- First-occurrence list of file paths, the key order of `groupIssuesByFile`. -/
def groupKeys (issues : List Issue) : List (List Char) :=
  issues.foldl (fun ks i => if ks.contains i.filePath then ks else ks ++ [i.filePath]) []

/-- `groupIssuesByFile`: partition findings by `filePath`, keys in
first-occurrence order, values in encounter order. -/
def groupIssuesByFile (issues : List Issue) : List (List Char × List Issue) :=
  (groupKeys issues).map (fun p => (p, issues.filter (fun i => i.filePath = p)))

/-- The file loop of `removeDeadCode`: per group, optionally ask the
`confirmEach` callback, run `processFile`, apply its writes to the disk and
accumulate counts, errors, modified files and the write trace. -/
def runGroups (now : Nat) (opts : RemovalOptions) (confirm : List Char → Bool) :
    List (List Char × List Issue) → FS →
    Nat × List (List Char) × List (List Char) × FS × List (List Char × List Char)
  | [], fs => (0, [], [], fs, [])
  | (p, gis) :: rest, fs =>
    if opts.confirmEach && !confirm p then runGroups now opts confirm rest fs
    else
      let out := processFile fs now p gis opts
      let fs2 := applyWrites fs out.writes
      let r := runGroups now opts confirm rest fs2
      (out.removedCount + r.1, out.errors ++ r.2.1,
        (if out.modified then [p] else []) ++ r.2.2.1, r.2.2.2.1,
        out.writes ++ r.2.2.2.2)

/-- Everything a `removeDeadCode` run produces: the returned result, the
final disk state and the ordered write trace. -/
structure RemovalRun where
  result : RemovalResult
  fs : FS
  writes : List (List Char × List Char)
  deriving Repr, DecidableEq

/-- The `filteredIssues` of `removeDeadCode`: keep only `high` confidence
findings when `onlyHighConfidence` is set. -/
def filteredIssues (issues : List Issue) (opts : RemovalOptions) : List Issue :=
  if opts.onlyHighConfidence then issues.filter (fun i => i.confidence = .high)
  else issues

/-- `DeadCodeRemover.removeDeadCode`: filter to high confidence when asked,
return immediately when nothing is left, else group by file and run the file
loop.  `confirm` stands for the per-file confirmation dialog. -/
def removeDeadCode (fs : FS) (now : Nat) (issues : List Issue)
    (opts : RemovalOptions) (confirm : List Char → Bool) : RemovalRun :=
  if (filteredIssues issues opts).isEmpty then
    ⟨{ success := true, removedCount := 0, errors := [], modifiedFiles := [] }, fs, []⟩
  else
    ⟨{ success := true,
       removedCount := (runGroups now opts confirm (groupIssuesByFile (filteredIssues issues opts)) fs).1,
       errors := (runGroups now opts confirm (groupIssuesByFile (filteredIssues issues opts)) fs).2.1,
       modifiedFiles := (runGroups now opts confirm (groupIssuesByFile (filteredIssues issues opts)) fs).2.2.1 },
     (runGroups now opts confirm (groupIssuesByFile (filteredIssues issues opts)) fs).2.2.2.1,
     (runGroups now opts confirm (groupIssuesByFile (filteredIssues issues opts)) fs).2.2.2.2⟩

/-- Every occurrence of group `n` in the pattern is `grp n (.plus p)`. -/
def grpOnly (n : Nat) (p : Char → Bool) : Rx → Prop
  | .seq a b => grpOnly n p a ∧ grpOnly n p b
  | .alt a b => grpOnly n p a ∧ grpOnly n p b
  | .opt a => grpOnly n p a
  | .grp m a => if m = n then a = Rx.plus p else grpOnly n p a
  | _ => True

/-- Contribution of one character to the brace counter. -/
def charBal (c : Char) : Int :=
  if c = lbr then 1 else if c = rbr then -1 else 0

/-- Running brace counter value after a character sequence: occurrences of
`{` minus occurrences of `}`. -/
def braceBal (cs : List Char) : Int :=
  (cs.count lbr : Int) - (cs.count rbr : Int)

/-- The brace counter has been strictly positive at least once within the
first `k + 1` characters. -/
def wentPositive (cs : List Char) (k : Nat) : Bool :=
  (List.range (k + 1)).any (fun j => 0 < braceBal (cs.take (j + 1)))

/-- Character position `k` is a closing brace at which the counter returns to
zero after having gone positive at least once — the claim-level description of
where the brace scan stops. -/
def specFiresAt (cs : List Char) (k : Nat) : Bool :=
  cs.get? k = some rbr && braceBal (cs.take (k + 1)) = 0 && wentPositive cs k

/-- First such character position, if any. -/
def fireIdxSpec (cs : List Char) : Option Nat :=
  (List.range cs.length).find? (specFiresAt cs)

/-- Operational counterpart carrying the scan state `(braceCount,
foundOpenBrace)`: position `k` is where `findFunctionEnd`'s loop stops. -/
def flatFiresAt (cs : List Char) (b : Int) (f : Bool) (k : Nat) : Bool :=
  cs.get? k = some rbr && (b + braceBal (cs.take (k + 1)) = 0) &&
    (f || (cs.take (k + 1)).contains lbr)

/-- First such position for the carried state. -/
def fireIdxFrom (cs : List Char) (b : Int) (f : Bool) : Option Nat :=
  (List.range cs.length).find? (flatFiresAt cs b f)

/-- Which line of `lines` the flat character position `k` falls in. -/
def lineIdxOfPos : List (List Char) → Nat → Nat
  | [], _ => 0
  | l :: ls, k => if k < l.length then 0 else 1 + lineIdxOfPos ls (k - l.length)

/-- The claim-level description of the brace scan: concatenate the lines from
`start`, find the first closing brace at which the `{`/`}` counter returns to
zero after having gone positive at least once, and name the line it is on. -/
def funcEndSpec (lines : List (List Char)) (start : Nat) : Option Nat :=
  (fireIdxSpec ((lines.drop start).flatten)).map
    (fun k => start + lineIdxOfPos (lines.drop start) k)

/-- A concrete finding used by the witnesses below. -/
def testIssue (t : IssueType) (fp : List Char) (line : Int) (nm : List Char) : Issue :=
  { type := t, filePath := fp, relativePath := fp, line := line, column := 1,
    name := nm, description := [], confidence := .high, category := .deadCode }

/-- Concrete three-line file used by the C6 witness. -/
def c6content : List Char :=
  "keep();\nimport a from \"m\";\nimport b from \"n\";".data

/-- Concrete findings used by the C6 witness. -/
def c6issues : List Issue :=
  [testIssue .unusedImport "a.ts".data 2 "a".data,
   testIssue .unusedImport "a.ts".data 3 "b".data]

/-- Concrete file used by the C1 witness: one named import that is never
referenced outside its import line. -/
def c1content : List Char :=
  "import \x7b unusedA \x7d from \"m\";\nconsole.log(1);\n".data

/-! ### Basic facts about the string utilities -/

theorem splitOnChar_ne_nil (sep : Char) (l : List Char) : splitOnChar sep l ≠ [] := by
  cases l with
  | nil => simp [splitOnChar]
  | cons c cs =>
    simp only [splitOnChar]
    by_cases h : c = sep
    · simp [h]
    · simp only [if_neg h]
      cases hr : splitOnChar sep cs with
      | nil => simp
      | cons a t => simp

theorem mem_splitOnChar_not_sep (sep : Char) (l : List Char) :
    ∀ x ∈ splitOnChar sep l, sep ∉ x := by
  induction l with
  | nil => intro x hx; simp [splitOnChar] at hx; simp [hx]
  | cons c cs ih =>
    intro x hx
    simp only [splitOnChar] at hx
    by_cases h : c = sep
    · simp only [if_pos h, List.mem_cons] at hx
      rcases hx with rfl | hx
      · simp
      · exact ih x hx
    · simp only [if_neg h] at hx
      cases hr : splitOnChar sep cs with
      | nil => exact absurd hr (splitOnChar_ne_nil sep cs)
      | cons a t =>
        rw [hr] at hx
        simp only [List.mem_cons] at hx
        rcases hx with rfl | hx
        · intro hmem
          rcases List.mem_cons.mp hmem with rfl | hmem2
          · exact h rfl
          · exact ih a (hr ▸ List.mem_cons_self a t) hmem2
        · exact ih x (hr ▸ List.mem_cons_of_mem a hx)

theorem joinNl_cons (l : List Char) (ls : List (List Char)) (h : ls ≠ []) :
    joinNl (l :: ls) = l ++ '\n' :: joinNl ls := by
  cases ls with
  | nil => exact absurd rfl h
  | cons a t => rfl

theorem joinNl_splitOnChar (l : List Char) : joinNl (splitOnChar '\n' l) = l := by
  induction l with
  | nil => rfl
  | cons c cs ih =>
    simp only [splitOnChar]
    by_cases h : c = '\n'
    · rw [if_pos h, joinNl_cons _ _ (splitOnChar_ne_nil _ cs), ih, h]
      rfl
    · rw [if_neg h]
      cases hr : splitOnChar '\n' cs with
      | nil => exact absurd hr (splitOnChar_ne_nil _ cs)
      | cons a t =>
        rw [hr] at ih
        cases t with
        | nil =>
          simp only [joinNl] at ih ⊢
          rw [ih]
        | cons b t2 =>
          rw [joinNl_cons _ _ (by simp)] at ih ⊢
          simp only [List.cons_append, ih]

theorem splitOnChar_no_sep (sep : Char) (l : List Char) (h : sep ∉ l) :
    splitOnChar sep l = [l] := by
  induction l with
  | nil => rfl
  | cons c cs ih =>
    simp only [List.mem_cons, not_or] at h
    have hc : ¬c = sep := fun hc => h.1 hc.symm
    simp only [splitOnChar, if_neg hc, ih h.2]

theorem splitOnChar_append_sep (sep : Char) (l rest : List Char) (h : sep ∉ l) :
    splitOnChar sep (l ++ sep :: rest) = l :: splitOnChar sep rest := by
  induction l with
  | nil => simp [splitOnChar]
  | cons c cs ih =>
    simp only [List.mem_cons, not_or] at h
    have hc : ¬c = sep := fun hc => h.1 hc.symm
    simp only [List.cons_append, splitOnChar, if_neg hc]
    rw [show cs.append (sep :: rest) = cs ++ sep :: rest from rfl, ih h.2]

theorem splitOnChar_joinNl (ls : List (List Char)) (hne : ls ≠ [])
    (h : ∀ x ∈ ls, '\n' ∉ x) : splitOnChar '\n' (joinNl ls) = ls := by
  induction ls with
  | nil => exact absurd rfl hne
  | cons l t ih =>
    cases t with
    | nil =>
      simp only [joinNl]
      exact splitOnChar_no_sep _ l (h l (by simp))
    | cons b t2 =>
      rw [joinNl_cons _ _ (by simp)]
      rw [splitOnChar_append_sep _ _ _ (h l (by simp))]
      rw [ih (by simp) (fun x hx => h x (List.mem_cons_of_mem l hx))]

theorem linesOf_joinNl_linesOf (c : List Char) : joinNl (linesOf c) = c :=
  joinNl_splitOnChar c

theorem sublist_take_append_drop (l : List (List Char)) (i j : Nat) (hij : i ≤ j) :
    (l.take i ++ l.drop j).Sublist l := by
  induction l generalizing i j with
  | nil => simp
  | cons a t ih =>
    cases i with
    | zero => simpa using List.drop_sublist j (a :: t)
    | succ i2 =>
      cases j with
      | zero => omega
      | succ j2 =>
        simp only [List.take_succ_cons, List.drop_succ_cons, List.cons_append]
        exact List.Sublist.cons₂ a (ih i2 j2 (Nat.le_of_succ_le_succ hij))

theorem take_take_append_drop (l : List (List Char)) (k i j : Nat)
    (hki : k ≤ i) (hij : i ≤ j) :
    (l.take i ++ l.drop j).take k = l.take k := by
  induction l generalizing k i j with
  | nil => simp
  | cons a t ih =>
    cases k with
    | zero => simp
    | succ k2 =>
      cases i with
      | zero => omega
      | succ i2 =>
        cases j with
        | zero => omega
        | succ j2 =>
          simp only [List.take_succ_cons, List.drop_succ_cons, List.cons_append]
          rw [ih k2 i2 j2 (Nat.le_of_succ_le_succ hki) (Nat.le_of_succ_le_succ hij)]

theorem isPrefixOf_decomp (s l : List Char) (h : s.isPrefixOf l = true) :
    ∃ t, l = s ++ t := by
  induction s generalizing l with
  | nil => exact ⟨l, rfl⟩
  | cons c cs ih =>
    cases l with
    | nil => simp [List.isPrefixOf] at h
    | cons d ds =>
      simp only [List.isPrefixOf, Bool.and_eq_true, beq_iff_eq] at h
      obtain ⟨t, ht⟩ := ih ds h.2
      exact ⟨t, by rw [h.1, List.cons_append, ht]⟩

theorem isPrefixOf_of_append (s t : List Char) : s.isPrefixOf (s ++ t) = true := by
  induction s with
  | nil => simp [List.isPrefixOf]
  | cons c cs ih => simp [List.isPrefixOf, ih]

theorem containsSub_complete (l pat : List Char)
    (h : ∃ pre post, l = pre ++ pat ++ post) : containsSub l pat = true := by
  obtain ⟨pre, post, rfl⟩ := h
  induction pre with
  | nil =>
    rw [containsSub.eq_def]
    have hpre : pat.isPrefixOf ([] ++ pat ++ post) = true := by
      simp only [List.nil_append]
      exact isPrefixOf_of_append pat post
    rw [if_pos hpre]
  | cons c cs ih =>
    rw [containsSub.eq_def]
    by_cases hp : pat.isPrefixOf (c :: cs ++ pat ++ post) = true
    · rw [if_pos hp]
    · rw [if_neg hp]
      exact ih

theorem containsSub_sound (l pat : List Char) (h : containsSub l pat = true) :
    ∃ pre post, l = pre ++ pat ++ post := by
  induction l with
  | nil =>
    rw [containsSub.eq_def] at h
    by_cases hp : pat.isPrefixOf ([] : List Char)
    · obtain ⟨t, ht⟩ := isPrefixOf_decomp pat [] hp
      exact ⟨[], t, by simpa using ht⟩
    · simp [hp] at h
  | cons c cs ih =>
    rw [containsSub.eq_def] at h
    by_cases hp : pat.isPrefixOf (c :: cs)
    · obtain ⟨t, ht⟩ := isPrefixOf_decomp pat _ hp
      exact ⟨[], t, by simpa using ht⟩
    · simp only [hp, if_neg] at h
      obtain ⟨pre, post, hd⟩ := ih (by simpa [hp] using h)
      exact ⟨c :: pre, post, by simp [hd]⟩

theorem dropWhile_head_false {p : Char → Bool} {l : List Char} {c : Char} {t : List Char}
    (h : l.dropWhile p = c :: t) : p c = false := by
  induction l with
  | nil => simp [List.dropWhile] at h
  | cons a s ih =>
    rw [List.dropWhile_cons] at h
    by_cases hp : p a = true
    · exact ih (by simpa [hp] using h)
    · have : a = c := by
        simp only [hp, if_false, Bool.false_eq_true] at h
        exact (List.cons.injEq a s c t ▸ h).1
      subst this
      simpa using hp

theorem dropWhile_fixed_of_head {p : Char → Bool} {l : List Char}
    (h : l = [] ∨ ∃ c t, l = c :: t ∧ p c = false) : l.dropWhile p = l := by
  rcases h with rfl | ⟨c, t, rfl, hc⟩
  · rfl
  · simp [List.dropWhile_cons, hc]

theorem dropWhile_idem (p : Char → Bool) (l : List Char) :
    (l.dropWhile p).dropWhile p = l.dropWhile p := by
  cases h : l.dropWhile p with
  | nil => rfl
  | cons c t =>
    exact dropWhile_fixed_of_head (Or.inr ⟨c, t, rfl, dropWhile_head_false h⟩)

theorem dropWhile_decomp (p : Char → Bool) (l : List Char) :
    ∃ a, l = a ++ l.dropWhile p :=
  ⟨l.takeWhile p, (List.takeWhile_append_dropWhile p l).symm⟩

theorem dropEnd_decomp (p : Char → Bool) (l : List Char) :
    ∃ b, l = dropEnd p l ++ b := by
  obtain ⟨a, ha⟩ := dropWhile_decomp p l.reverse
  refine ⟨a.reverse, ?_⟩
  have := congrArg List.reverse ha
  simpa [dropEnd] using this

theorem dropEnd_idem (p : Char → Bool) (l : List Char) :
    dropEnd p (dropEnd p l) = dropEnd p l := by
  simp [dropEnd, dropWhile_idem]

theorem dropEnd_of_dropWhile_fixed (p : Char → Bool) (l : List Char)
    (h : l.dropWhile p = l) : (dropEnd p l).dropWhile p = dropEnd p l := by
  cases hd : dropEnd p l with
  | nil => rfl
  | cons c t =>
    apply dropWhile_fixed_of_head
    refine Or.inr ⟨c, t, rfl, ?_⟩
    obtain ⟨b, hb⟩ := dropEnd_decomp p l
    rw [hd] at hb
    have hl : l.dropWhile p = c :: (t ++ b) := by rw [h, hb]; simp
    exact dropWhile_head_false hl

theorem jsTrim_idem (l : List Char) : jsTrim (jsTrim l) = jsTrim l := by
  unfold jsTrim
  rw [dropEnd_of_dropWhile_fixed jsSpace (l.dropWhile jsSpace) (dropWhile_idem jsSpace l)]
  exact dropEnd_idem jsSpace (l.dropWhile jsSpace)

theorem jsTrim_decomp (l : List Char) : ∃ a b, l = a ++ jsTrim l ++ b := by
  obtain ⟨a, ha⟩ := dropWhile_decomp jsSpace l
  obtain ⟨b, hb⟩ := dropEnd_decomp jsSpace (l.dropWhile jsSpace)
  refine ⟨a, b, ?_⟩
  rw [List.append_assoc]
  unfold jsTrim
  rw [← hb, ← ha]

theorem dropWhile_all_false {p : Char → Bool} {l : List Char}
    (h : ∀ c ∈ l, p c = false) : l.dropWhile p = l := by
  cases l with
  | nil => rfl
  | cons c t => simp [List.dropWhile_cons, h c (by simp)]

theorem jsTrim_all_nonspace {l : List Char} (h : ∀ c ∈ l, jsSpace c = false) :
    jsTrim l = l := by
  unfold jsTrim dropEnd
  rw [dropWhile_all_false h, dropWhile_all_false (fun c hc => h c (List.mem_reverse.mp hc))]
  simp

/-! ### Basic facts about the modelled file system -/

theorem fsRead_nil (q : List Char) : fsRead [] q = none := rfl

theorem fsRead_cons (e : List Char × List Char) (es : FS) (q : List Char) :
    fsRead (e :: es) q = if e.1 = q then some e.2 else fsRead es q := by
  simp only [fsRead]
  by_cases h : e.1 = q
  · rw [List.find?_cons_of_pos _ (by simpa using h), if_pos h]
    rfl
  · rw [List.find?_cons_of_neg _ (by simpa using h), if_neg h]

theorem fsRead_fsWrite (fs : FS) (p c q : List Char) :
    fsRead (fsWrite fs p c) q = if q = p then some c else fsRead fs q := by
  induction fs with
  | nil =>
    rw [show fsWrite [] p c = [(p, c)] from rfl, fsRead_cons]
    by_cases h : q = p
    · simp [h]
    · rw [if_neg (fun hp : p = q => h hp.symm), if_neg h, fsRead_nil]
  | cons e es ih =>
    simp only [fsWrite]
    by_cases he : e.1 = p
    · rw [if_pos he, fsRead_cons, fsRead_cons]
      by_cases h : q = p
      · simp [h]
      · have h1 : ¬p = q := fun x => h x.symm
        have h2 : ¬e.1 = q := fun x => h1 (he ▸ x)
        rw [if_neg h1, if_neg h, if_neg h2]
    · rw [if_neg he, fsRead_cons, fsRead_cons, ih]
      by_cases h : e.1 = q
      · have hq : ¬q = p := fun hqp => he (by rw [h, hqp])
        rw [if_pos h, if_neg hq, if_pos h]
      · by_cases hq : q = p
        · rw [if_neg h, if_pos hq, if_pos hq]
        · rw [if_neg h, if_neg hq, if_neg hq, if_neg h]

theorem fsRead_applyWrites_not_mem (fs : FS) (ws : List (List Char × List Char))
    (q : List Char) (h : ∀ w ∈ ws, w.1 ≠ q) :
    fsRead (applyWrites fs ws) q = fsRead fs q := by
  induction ws generalizing fs with
  | nil => rfl
  | cons w t ih =>
    simp only [applyWrites, List.foldl_cons]
    have step : fsRead (fsWrite fs w.1 w.2) q = fsRead fs q := by
      rw [fsRead_fsWrite]
      rw [if_neg (fun hq : q = w.1 => h w (by simp) hq.symm)]
    calc fsRead (applyWrites (fsWrite fs w.1 w.2) t) q
        = fsRead (fsWrite fs w.1 w.2) q :=
          ih (fsWrite fs w.1 w.2) (fun x hx => h x (by simp [hx]))
      _ = fsRead fs q := step

theorem groupKeys_nodup (issues : List Issue) : (groupKeys issues).Nodup := by
  have gen : ∀ (l : List Issue) (acc : List (List Char)), acc.Nodup →
      (l.foldl (fun ks i => if ks.contains i.filePath then ks else ks ++ [i.filePath]) acc).Nodup := by
    intro l
    induction l with
    | nil => intro acc h; exact h
    | cons i t ih =>
      intro acc h
      simp only [List.foldl_cons]
      by_cases hc : acc.contains i.filePath
      · rw [if_pos hc]; exact ih acc h
      · rw [if_neg hc]
        apply ih
        rw [List.nodup_append]
        refine ⟨h, List.nodup_singleton _, ?_⟩
        intro x hx hx2
        simp only [List.mem_singleton] at hx2
        subst hx2
        exact hc (List.elem_iff.mpr hx)
  exact gen issues [] List.nodup_nil

/-! ### Soundness facts about the regex engine -/

theorem splitsAsc_spec (p : Char → Bool) (l : List Char) :
    ∀ q ∈ splitsAsc p l, q.1 ++ q.2 = l ∧ q.1.all p = true := by
  induction l with
  | nil => intro q hq; simp [splitsAsc] at hq; simp [hq]
  | cons c cs ih =>
    intro q hq
    simp only [splitsAsc, List.mem_cons] at hq
    rcases hq with rfl | hq
    · simp
    · by_cases hp : p c = true
      · rw [if_pos hp] at hq
        obtain ⟨q2, hq2, rfl⟩ := List.mem_map.mp hq
        obtain ⟨h1, h2⟩ := ih q2 hq2
        refine ⟨by simp [h1], ?_⟩
        simp [List.all_cons, hp, h2]
      · rw [if_neg hp] at hq
        simp at hq

theorem matchRx_sound (rx : Rx) : ∀ (prev : Option Char) (rest : List Char),
    ∀ r ∈ matchRx rx prev rest,
      r.1 ++ r.2.1 = rest ∧ ∀ pc ∈ r.2.2, ∃ a b, r.1 = a ++ pc.2 ++ b := by
  induction rx with
  | eps =>
    intro prev rest r hr
    simp only [matchRx, List.mem_singleton] at hr
    subst hr; simp
  | lit s =>
    intro prev rest r hr
    simp only [matchRx] at hr
    by_cases h : s.isPrefixOf rest = true
    · rw [if_pos h] at hr
      simp only [List.mem_singleton] at hr
      subst hr
      obtain ⟨t, ht⟩ := isPrefixOf_decomp s rest h
      constructor
      · rw [ht]
        simp
      · simp
    · rw [if_neg h] at hr; simp at hr
  | cls p =>
    intro prev rest r hr
    cases rest with
    | nil => simp [matchRx] at hr
    | cons c cs =>
      simp only [matchRx] at hr
      by_cases h : p c = true
      · rw [if_pos h] at hr
        simp only [List.mem_singleton] at hr
        subst hr; simp
      · rw [if_neg h] at hr; simp at hr
  | seq a b iha ihb =>
    intro prev rest r hr
    simp only [matchRx, List.mem_flatMap, List.mem_map] at hr
    obtain ⟨ra, hra, qb, hqb, rfl⟩ := hr
    obtain ⟨ha1, ha2⟩ := iha prev rest ra hra
    obtain ⟨hb1, hb2⟩ := ihb (lastOr prev ra.1) ra.2.1 qb hqb
    constructor
    · simp only []
      rw [List.append_assoc, hb1, ha1]
    · intro pc hpc
      simp only [List.mem_append] at hpc
      rcases hpc with hpc | hpc
      · obtain ⟨x, y, hxy⟩ := ha2 pc hpc
        exact ⟨x, y ++ qb.1, by simp [hxy]⟩
      · obtain ⟨x, y, hxy⟩ := hb2 pc hpc
        exact ⟨ra.1 ++ x, y, by simp [hxy]⟩
  | alt a b iha ihb =>
    intro prev rest r hr
    simp only [matchRx, List.mem_append] at hr
    rcases hr with hr | hr
    · exact iha prev rest r hr
    · exact ihb prev rest r hr
  | opt a iha =>
    intro prev rest r hr
    simp only [matchRx, List.mem_append, List.mem_singleton] at hr
    rcases hr with hr | rfl
    · exact iha prev rest r hr
    · simp
  | star p =>
    intro prev rest r hr
    simp only [matchRx, List.mem_map, List.mem_reverse] at hr
    obtain ⟨q, hq, rfl⟩ := hr
    obtain ⟨h1, _⟩ := splitsAsc_spec p rest q hq
    exact ⟨h1, by simp⟩
  | lazyStar p =>
    intro prev rest r hr
    simp only [matchRx, List.mem_map] at hr
    obtain ⟨q, hq, rfl⟩ := hr
    obtain ⟨h1, _⟩ := splitsAsc_spec p rest q hq
    exact ⟨h1, by simp⟩
  | plus p =>
    intro prev rest r hr
    cases rest with
    | nil => simp [matchRx] at hr
    | cons c cs =>
      simp only [matchRx] at hr
      by_cases h : p c = true
      · rw [if_pos h] at hr
        simp only [List.mem_map, List.mem_reverse] at hr
        obtain ⟨q, hq, rfl⟩ := hr
        obtain ⟨h1, _⟩ := splitsAsc_spec p cs q hq
        exact ⟨by simp [h1], by simp⟩
      · rw [if_neg h] at hr; simp at hr
  | grp n a iha =>
    intro prev rest r hr
    simp only [matchRx, List.mem_map] at hr
    obtain ⟨ra, hra, rfl⟩ := hr
    obtain ⟨h1, h2⟩ := iha prev rest ra hra
    refine ⟨h1, ?_⟩
    intro pc hpc
    simp only [List.mem_cons] at hpc
    rcases hpc with rfl | hpc
    · exact ⟨[], [], by simp⟩
    · exact h2 pc hpc
  | bol =>
    intro prev rest r hr
    simp only [matchRx] at hr
    by_cases h : (prev = none || prev = some '\n') = true
    · rw [if_pos h] at hr
      simp only [List.mem_singleton] at hr
      subst hr; simp
    · rw [if_neg h] at hr; simp at hr
  | eol =>
    intro prev rest r hr
    simp only [matchRx] at hr
    by_cases h : (rest.isEmpty || rest.head? = some '\n') = true
    · rw [if_pos h] at hr
      simp only [List.mem_singleton] at hr
      subst hr; simp
    · rw [if_neg h] at hr; simp at hr
  | wb =>
    intro prev rest r hr
    simp only [matchRx] at hr
    by_cases h : (isWordB prev != isWordB rest.head?) = true
    · rw [if_pos h] at hr
      simp only [List.mem_singleton] at hr
      subst hr; simp
    · rw [if_neg h] at hr; simp at hr

theorem execFrom_origin (rx : Rx) (prev : Option Char) (rest : List Char) (idx : Nat)
    (m : MatchInfo) (p2 : Option Char) (r2 : List Char)
    (h : execFrom rx prev rest idx = some (m, p2, r2)) :
    ∃ prev0 rest0 r, (∃ pre, rest = pre ++ rest0) ∧ r ∈ matchRx rx prev0 rest0 ∧
      m.consumed = r.1 ∧ m.caps = r.2.2 ∧ r.2.1 = r2 := by
  induction rest generalizing prev idx with
  | nil =>
    rw [execFrom] at h
    cases heq : matchRx rx prev [] with
    | nil => rw [heq] at h; simp at h
    | cons r rs =>
      rw [heq] at h
      simp only [Option.some.injEq, Prod.mk.injEq] at h
      refine ⟨prev, [], r, ⟨[], rfl⟩, heq ▸ List.mem_cons_self r rs, ?_, ?_, h.2.2⟩
      · rw [← h.1]
      · rw [← h.1]
  | cons c cs ih =>
    rw [execFrom] at h
    cases heq : matchRx rx prev (c :: cs) with
    | nil =>
      rw [heq] at h
      obtain ⟨prev0, rest0, r, ⟨pre, hpre⟩, hmem, h1, h2, h3⟩ := ih (some c) (idx + 1) h
      exact ⟨prev0, rest0, r, ⟨c :: pre, by simp [hpre]⟩, hmem, h1, h2, h3⟩
    | cons r rs =>
      rw [heq] at h
      simp only [Option.some.injEq, Prod.mk.injEq] at h
      refine ⟨prev, c :: cs, r, ⟨[], rfl⟩, heq ▸ List.mem_cons_self r rs, ?_, ?_, h.2.2⟩
      · rw [← h.1]
      · rw [← h.1]

theorem execAllAux_origin (rx : Rx) (fuel : Nat) : ∀ (prev : Option Char)
    (rest : List Char) (idx : Nat), ∀ m ∈ execAllAux rx fuel prev rest idx,
    ∃ prev0 rest0 r, (∃ pre, rest = pre ++ rest0) ∧ r ∈ matchRx rx prev0 rest0 ∧
      m.consumed = r.1 ∧ m.caps = r.2.2 := by
  induction fuel with
  | zero => intro prev rest idx m hm; simp [execAllAux] at hm
  | succ f ih =>
    intro prev rest idx m hm
    rw [execAllAux] at hm
    split at hm
    · simp at hm
    case h_2 m0 p2 r2 heq =>
      obtain ⟨prev0, rest0, r, ⟨pre, hpre⟩, hmem, h1, h2, h3⟩ :=
        execFrom_origin rx prev rest idx m0 p2 r2 heq
      have hr0 : rest0 = r.1 ++ r2 := by
        rw [← (matchRx_sound rx prev0 rest0 r hmem).1, h3]
      by_cases he : m0.consumed.isEmpty = true
      · rw [if_pos he] at hm
        cases hr2 : r2 with
        | nil =>
          rw [hr2] at hm
          simp only [List.mem_singleton] at hm
          subst hm
          exact ⟨prev0, rest0, r, ⟨pre, hpre⟩, hmem, h1, h2⟩
        | cons c cs =>
          rw [hr2] at hm
          simp only [List.mem_cons] at hm
          rcases hm with rfl | hm
          · exact ⟨prev0, rest0, r, ⟨pre, hpre⟩, hmem, h1, h2⟩
          · obtain ⟨prev1, rest1, r1, ⟨pre1, hpre1⟩, hmem1, g1, g2⟩ :=
              ih (some c) cs (m0.idx + 1) m hm
            refine ⟨prev1, rest1, r1, ⟨pre ++ r.1 ++ (c :: pre1), ?_⟩, hmem1, g1, g2⟩
            rw [hpre, hr0, hr2, hpre1]
            simp
      · rw [if_neg he] at hm
        simp only [List.mem_cons] at hm
        rcases hm with rfl | hm
        · exact ⟨prev0, rest0, r, ⟨pre, hpre⟩, hmem, h1, h2⟩
        · obtain ⟨prev1, rest1, r1, ⟨pre1, hpre1⟩, hmem1, g1, g2⟩ :=
            ih p2 r2 (m0.idx + m0.consumed.length) m hm
          refine ⟨prev1, rest1, r1, ⟨pre ++ r.1 ++ pre1, ?_⟩, hmem1, g1, g2⟩
          rw [hpre, hr0, hpre1]
          simp

theorem execAll_caps_infix (rx : Rx) (content : List Char) :
    ∀ m ∈ execAll rx content, ∀ pc ∈ m.caps,
      ∃ a b, content = a ++ pc.2 ++ b := by
  intro m hm pc hpc
  obtain ⟨prev0, rest0, r, ⟨pre, hpre⟩, hmem, h1, h2⟩ :=
    execAllAux_origin rx (content.length + 1) none content 0 m hm
  obtain ⟨hsplit, hcaps⟩ := matchRx_sound rx prev0 rest0 r hmem
  obtain ⟨a, b, hab⟩ := hcaps pc (h2 ▸ hpc)
  refine ⟨pre ++ a, b ++ r.2.1, ?_⟩
  rw [hpre, ← hsplit, hab]
  simp

theorem matchRx_grp (n : Nat) (p : Char → Bool) (rx : Rx) : ∀ (prev : Option Char)
    (rest : List Char), grpOnly n p rx →
    ∀ r ∈ matchRx rx prev rest, ∀ pc ∈ r.2.2, pc.1 = n →
      pc.2 ≠ [] ∧ pc.2.all p = true := by
  induction rx with
  | eps =>
    intro prev rest _ r hr
    simp only [matchRx, List.mem_singleton] at hr
    subst hr; simp
  | lit s =>
    intro prev rest _ r hr
    simp only [matchRx] at hr
    by_cases h : s.isPrefixOf rest = true
    · rw [if_pos h] at hr
      simp only [List.mem_singleton] at hr
      subst hr; simp
    · rw [if_neg h] at hr; simp at hr
  | cls q =>
    intro prev rest _ r hr
    cases rest with
    | nil => simp [matchRx] at hr
    | cons c cs =>
      simp only [matchRx] at hr
      by_cases h : q c = true
      · rw [if_pos h] at hr
        simp only [List.mem_singleton] at hr
        subst hr; simp
      · rw [if_neg h] at hr; simp at hr
  | seq a b iha ihb =>
    intro prev rest hg r hr
    simp only [matchRx, List.mem_flatMap, List.mem_map] at hr
    obtain ⟨ra, hra, qb, hqb, rfl⟩ := hr
    intro pc hpc hn
    simp only [List.mem_append] at hpc
    rcases hpc with hpc | hpc
    · exact iha prev rest hg.1 ra hra pc hpc hn
    · exact ihb (lastOr prev ra.1) ra.2.1 hg.2 qb hqb pc hpc hn
  | alt a b iha ihb =>
    intro prev rest hg r hr
    simp only [matchRx, List.mem_append] at hr
    rcases hr with hr | hr
    · exact iha prev rest hg.1 r hr
    · exact ihb prev rest hg.2 r hr
  | opt a iha =>
    intro prev rest hg r hr
    simp only [matchRx, List.mem_append, List.mem_singleton] at hr
    rcases hr with hr | rfl
    · exact iha prev rest hg r hr
    · simp
  | star q =>
    intro prev rest _ r hr
    simp only [matchRx, List.mem_map, List.mem_reverse] at hr
    obtain ⟨s, _, rfl⟩ := hr
    simp
  | lazyStar q =>
    intro prev rest _ r hr
    simp only [matchRx, List.mem_map] at hr
    obtain ⟨s, _, rfl⟩ := hr
    simp
  | plus q =>
    intro prev rest _ r hr
    cases rest with
    | nil => simp [matchRx] at hr
    | cons c cs =>
      simp only [matchRx] at hr
      by_cases h : q c = true
      · rw [if_pos h] at hr
        simp only [List.mem_map, List.mem_reverse] at hr
        obtain ⟨s, _, rfl⟩ := hr
        simp
      · rw [if_neg h] at hr; simp at hr
  | grp m a iha =>
    intro prev rest hg r hr
    simp only [matchRx, List.mem_map] at hr
    obtain ⟨ra, hra, rfl⟩ := hr
    intro pc hpc hn
    simp only [List.mem_cons] at hpc
    by_cases hm : m = n
    · rw [grpOnly, if_pos hm] at hg
      subst hg
      rcases hpc with rfl | hpc
      · cases rest with
        | nil => simp [matchRx] at hra
        | cons c cs =>
          simp only [matchRx] at hra
          by_cases h : p c = true
          · rw [if_pos h] at hra
            simp only [List.mem_map, List.mem_reverse] at hra
            obtain ⟨s, hs, rfl⟩ := hra
            obtain ⟨_, h2⟩ := splitsAsc_spec p cs s hs
            exact ⟨by simp, by simp [List.all_cons, h, h2]⟩
          · rw [if_neg h] at hra; simp at hra
      · cases rest with
        | nil => simp [matchRx] at hra
        | cons c cs =>
          simp only [matchRx] at hra
          by_cases h : p c = true
          · rw [if_pos h] at hra
            simp only [List.mem_map, List.mem_reverse] at hra
            obtain ⟨s, _, rfl⟩ := hra
            simp at hpc
          · rw [if_neg h] at hra; simp at hra
    · rw [grpOnly, if_neg hm] at hg
      rcases hpc with rfl | hpc
      · simp only [] at hn
        exact absurd hn hm
      · exact iha prev rest hg ra hra pc hpc hn
  | bol =>
    intro prev rest _ r hr
    simp only [matchRx] at hr
    by_cases h : (prev = none || prev = some '\n') = true
    · rw [if_pos h] at hr
      simp only [List.mem_singleton] at hr
      subst hr; simp
    · rw [if_neg h] at hr; simp at hr
  | eol =>
    intro prev rest _ r hr
    simp only [matchRx] at hr
    by_cases h : (rest.isEmpty || rest.head? = some '\n') = true
    · rw [if_pos h] at hr
      simp only [List.mem_singleton] at hr
      subst hr; simp
    · rw [if_neg h] at hr; simp at hr
  | wb =>
    intro prev rest _ r hr
    simp only [matchRx] at hr
    by_cases h : (isWordB prev != isWordB rest.head?) = true
    · rw [if_pos h] at hr
      simp only [List.mem_singleton] at hr
      subst hr; simp
    · rw [if_neg h] at hr; simp at hr

theorem execAll_grp (n : Nat) (p : Char → Bool) (rx : Rx) (content : List Char)
    (hg : grpOnly n p rx) : ∀ m ∈ execAll rx content, ∀ pc ∈ m.caps, pc.1 = n →
      pc.2 ≠ [] ∧ pc.2.all p = true := by
  intro m hm pc hpc hn
  obtain ⟨prev0, rest0, r, _, hmem, _, h2⟩ :=
    execAllAux_origin rx (content.length + 1) none content 0 m hm
  exact matchRx_grp n p rx prev0 rest0 hg r hmem pc (h2 ▸ hpc) hn

/-! ### The brace scan of `findFunctionEnd` against its claim-level description -/

theorem lbr_ne_rbr : lbr ≠ rbr := by decide

theorem braceBal_nil : braceBal [] = 0 := by
  simp [braceBal]

theorem braceBal_cons (c : Char) (cs : List Char) :
    braceBal (c :: cs) = charBal c + braceBal cs := by
  have hcount : ∀ a : Char, List.count a (c :: cs) = List.count a cs + if c == a then 1 else 0 :=
    fun a => List.count_cons a c cs
  simp only [braceBal, hcount, charBal]
  by_cases h1 : c = lbr
  · have h2 : ¬c = rbr := fun hc => lbr_ne_rbr (h1 ▸ hc)
    rw [if_pos h1]
    rw [if_pos (show (c == lbr) = true by simp [h1])]
    rw [if_neg (show ¬(c == rbr) = true by simp [h2])]
    push_cast
    ring
  · rw [if_neg h1]
    rw [if_neg (show ¬(c == lbr) = true by simp [h1])]
    by_cases h2 : c = rbr
    · rw [if_pos h2, if_pos (show (c == rbr) = true by simp [h2])]
      push_cast
      ring
    · rw [if_neg h2, if_neg (show ¬(c == rbr) = true by simp [h2])]
      push_cast
      ring

theorem braceBal_append (x y : List Char) :
    braceBal (x ++ y) = braceBal x + braceBal y := by
  simp only [braceBal, List.count_append]
  push_cast
  ring

theorem charBal_lbr : charBal lbr = 1 := by
  simp [charBal]

theorem charBal_rbr : charBal rbr = -1 := by
  simp [charBal, fun h : lbr = rbr => lbr_ne_rbr h]
  intro h
  exact absurd h.symm (fun h2 : lbr = rbr => lbr_ne_rbr h2)

theorem flatFiresAt_zero (c : Char) (cs : List Char) (b : Int) (f : Bool) :
    flatFiresAt (c :: cs) b f 0 =
      ((c = rbr : Bool) && (b + charBal c = 0) && (f || (c = lbr : Bool))) := by
  have htake : (c :: cs).take 1 = [c] := rfl
  have hget : (c :: cs).get? 0 = some c := rfl
  have hbal : braceBal [c] = charBal c := by
    rw [show ([c] : List Char) = c :: ([] : List Char) from rfl, braceBal_cons, braceBal_nil]
    ring
  have hcont : ([c] : List Char).contains lbr = (c = lbr : Bool) := by
    rw [List.contains_cons]
    by_cases h : c = lbr
    · simp [h]
    · simp only [h, decide_False, Bool.or_false]
      simp [fun hc : lbr = c => h hc.symm]
      exact fun hc => h hc.symm
  simp only [flatFiresAt, htake, hget, hbal, hcont]
  by_cases h : c = rbr
  · simp [h]
  · simp [h]

theorem flatFiresAt_succ (c : Char) (cs : List Char) (b : Int) (f : Bool) (k : Nat) :
    flatFiresAt (c :: cs) b f (k + 1) =
      flatFiresAt cs (b + charBal c) (f || (c = lbr : Bool)) k := by
  have hget : (c :: cs).get? (k + 1) = cs.get? k := rfl
  have htake : (c :: cs).take (k + 2) = c :: cs.take (k + 1) := rfl
  simp only [flatFiresAt, hget, htake, braceBal_cons, List.contains_cons]
  have hd : decide (b + (charBal c + braceBal (cs.take (k + 1))) = 0) =
      decide (b + charBal c + braceBal (cs.take (k + 1)) = 0) :=
    decide_eq_decide.mpr (by omega)
  rw [hd]
  have hcont : (lbr == c) = (c = lbr : Bool) := by
    by_cases h : c = lbr
    · simp [h]
    · simp only [h, decide_False]
      simp only [beq_eq_false_iff_ne, ne_eq]
      exact fun hc => h hc.symm
  rw [hcont, Bool.or_assoc]

theorem flatFiresAt_nil (b : Int) (f : Bool) (k : Nat) :
    flatFiresAt [] b f k = false := by
  cases k with
  | zero => rfl
  | succ k2 => rfl

theorem exists_fire_cons (c : Char) (cs : List Char) (b : Int) (f : Bool) :
    (∃ k, flatFiresAt (c :: cs) b f k = true) ↔
      (flatFiresAt (c :: cs) b f 0 = true ∨
        ∃ k, flatFiresAt cs (b + charBal c) (f || (c = lbr : Bool)) k = true) := by
  constructor
  · rintro ⟨k, hk⟩
    cases k with
    | zero => exact Or.inl hk
    | succ k2 =>
      rw [flatFiresAt_succ] at hk
      exact Or.inr ⟨k2, hk⟩
  · rintro (h | ⟨k, hk⟩)
    · exact ⟨0, h⟩
    · refine ⟨k + 1, ?_⟩
      rw [flatFiresAt_succ]
      exact hk

theorem lineScan_spec (l : List Char) : ∀ (b : Int) (f : Bool),
    ((lineScan l b f).1 = true ↔ ∃ k, flatFiresAt l b f k = true) ∧
    ((lineScan l b f).1 = false →
      lineScan l b f = (false, b + braceBal l, f || l.contains lbr)) := by
  induction l with
  | nil =>
    intro b f
    constructor
    · constructor
      · intro h; simp [lineScan] at h
      · rintro ⟨k, hk⟩
        rw [flatFiresAt_nil] at hk
        exact absurd hk (by simp)
    · intro _
      simp only [lineScan, braceBal_nil, List.contains, List.elem]
      rw [Int.add_zero, Bool.or_false]
  | cons c cs ih =>
    intro b f
    by_cases hc : c = lbr
    · have hscan : lineScan (c :: cs) b f = lineScan cs (b + 1) true := by
        simp only [lineScan, if_pos hc]
      have hzero : flatFiresAt (c :: cs) b f 0 = false := by
        rw [flatFiresAt_zero]
        have : (c = rbr : Bool) = false := by
          simp only [decide_eq_false_iff_not]
          exact fun h => lbr_ne_rbr (hc ▸ h)
        simp [this]
      have hbal : b + charBal c = b + 1 := by rw [hc, charBal_lbr]
      have hf : (f || (c = lbr : Bool)) = true := by simp [hc]
      constructor
      · rw [hscan, exists_fire_cons, hzero, hbal, hf]
        rw [(ih (b + 1) true).1]
        simp
      · intro h
        rw [hscan] at h ⊢
        rw [(ih (b + 1) true).2 h]
        have h1 : b + 1 + braceBal cs = b + braceBal (c :: cs) := by
          rw [braceBal_cons, hc, charBal_lbr]; omega
        have h2 : (true || cs.contains lbr) = (f || (c :: cs).contains lbr) := by
          rw [List.contains_cons]
          have : (lbr == c) = true := by simp [hc]
          simp [this]
        rw [h1, h2]
    · by_cases hr : c = rbr
      · by_cases hfire : (f && decide ((b - 1 : Int) = 0)) = true
        · have hscan : lineScan (c :: cs) b f = (true, b - 1, f) := by
            simp only [lineScan, if_neg hc, if_pos hr, hfire, if_pos]
          constructor
          · rw [hscan]
            constructor
            · intro _
              refine ⟨0, ?_⟩
              rw [flatFiresAt_zero]
              have h1 : (c = rbr : Bool) = true := by simp [hr]
              have h2 : (b + charBal c = 0 : Bool) = true := by
                rw [hr, charBal_rbr]
                simp only [decide_eq_true_eq]
                simp only [Bool.and_eq_true, decide_eq_true_eq] at hfire
                omega
              have h3 : (c = lbr : Bool) = false := by
                simp only [decide_eq_false_iff_not]
                exact fun h => hc h
              simp only [Bool.and_eq_true, decide_eq_true_eq] at hfire
              simp [h1, h2, h3, hfire.1]
            · intro _; rfl
          · intro h
            rw [hscan] at h
            exact absurd h (by simp)
        · have hscan : lineScan (c :: cs) b f = lineScan cs (b - 1) f := by
            simp only [lineScan, if_neg hc, if_pos hr, hfire]
            simp
          have hzero : flatFiresAt (c :: cs) b f 0 = false := by
            rw [flatFiresAt_zero]
            have h1 : (c = lbr : Bool) = false := by
              simp only [decide_eq_false_iff_not]; exact hc
            have h2 : decide (b + charBal c = 0) = decide ((b - 1 : Int) = 0) := by
              apply decide_eq_decide.mpr
              rw [hr, charBal_rbr]
              omega
            rw [h1, h2]
            cases hff : f with
            | false => simp
            | true =>
              simp only [Bool.or_false, Bool.and_true]
              rw [hff] at hfire
              simp only [Bool.true_and] at hfire
              cases hd : decide ((b - 1 : Int) = 0) with
              | false => simp
              | true => exact absurd hd hfire
          have hbal : b + charBal c = b - 1 := by rw [hr, charBal_rbr]; omega
          have hf : (f || (c = lbr : Bool)) = f := by
            have : (c = lbr : Bool) = false := by
              simp only [decide_eq_false_iff_not]; exact hc
            simp [this]
          constructor
          · rw [hscan, exists_fire_cons, hzero, hbal, hf]
            rw [(ih (b - 1) f).1]
            simp
          · intro h
            rw [hscan] at h ⊢
            rw [(ih (b - 1) f).2 h]
            have h1 : b - 1 + braceBal cs = b + braceBal (c :: cs) := by
              rw [braceBal_cons, hr, charBal_rbr]; omega
            have h2 : (f || cs.contains lbr) = (f || (c :: cs).contains lbr) := by
              rw [List.contains_cons]
              have : (lbr == c) = false := by
                simp only [beq_eq_false_iff_ne, ne_eq]
                exact fun h2 => hc h2.symm
              simp [this]
            rw [h1, h2]
      · have hscan : lineScan (c :: cs) b f = lineScan cs b f := by
          simp only [lineScan, if_neg hc, if_neg hr]
        have hzero : flatFiresAt (c :: cs) b f 0 = false := by
          rw [flatFiresAt_zero]
          have h1 : (c = rbr : Bool) = false := by
            simp only [decide_eq_false_iff_not]; exact hr
          simp [h1]
        have hcb : charBal c = 0 := by simp [charBal, hc, hr]
        have hbal : b + charBal c = b := by rw [hcb]; omega
        have hf : (f || (c = lbr : Bool)) = f := by
          have : (c = lbr : Bool) = false := by
            simp only [decide_eq_false_iff_not]; exact hc
          simp [this]
        constructor
        · rw [hscan, exists_fire_cons, hzero, hbal, hf]
          rw [(ih b f).1]
          simp
        · intro h
          rw [hscan] at h ⊢
          rw [(ih b f).2 h]
          have h1 : b + braceBal cs = b + braceBal (c :: cs) := by
            rw [braceBal_cons, hcb]; omega
          have h2 : (f || cs.contains lbr) = (f || (c :: cs).contains lbr) := by
            rw [List.contains_cons]
            have : (lbr == c) = false := by
              simp only [beq_eq_false_iff_ne, ne_eq]
              exact fun h2 => hc h2.symm
            simp [this]
          rw [h1, h2]

theorem fireIdxFrom_nil (b : Int) (f : Bool) : fireIdxFrom [] b f = none := rfl

theorem fireIdxFrom_cons (c : Char) (cs : List Char) (b : Int) (f : Bool) :
    fireIdxFrom (c :: cs) b f =
      if flatFiresAt (c :: cs) b f 0 = true then some 0
      else (fireIdxFrom cs (b + charBal c) (f || (c = lbr : Bool))).map (· + 1) := by
  unfold fireIdxFrom
  have hlen : (c :: cs).length = cs.length + 1 := rfl
  rw [hlen, List.range_succ_eq_map, List.find?_cons]
  cases h0 : flatFiresAt (c :: cs) b f 0 with
  | true => simp
  | false =>
    rw [if_neg (by simp)]
    rw [List.find?_map]
    have hfun : (flatFiresAt (c :: cs) b f ∘ Nat.succ) = flatFiresAt cs (b + charBal c) (f || (c = lbr : Bool)) := by
      funext k
      simp only [Function.comp_apply, Nat.succ_eq_add_one]
      exact flatFiresAt_succ c cs b f k
    rw [hfun]

theorem fireIdxFrom_lt (cs : List Char) (b : Int) (f : Bool) (k : Nat)
    (h : fireIdxFrom cs b f = some k) : k < cs.length :=
  List.mem_range.mp (List.mem_of_find?_eq_some h)

theorem fireIdxFrom_isSome_of_fire (cs : List Char) (b : Int) (f : Bool)
    (h : ∃ k, flatFiresAt cs b f k = true) : fireIdxFrom cs b f ≠ none := by
  obtain ⟨k, hk⟩ := h
  have hget : cs.get? k = some rbr := by
    have := hk
    unfold flatFiresAt at this
    simp only [Bool.and_eq_true, decide_eq_true_eq] at this
    exact this.1.1
  have hklen : k < cs.length := List.get?_eq_some.mp hget |>.1
  intro hnone
  have : ∃ x ∈ List.range cs.length, flatFiresAt cs b f x = true :=
    ⟨k, List.mem_range.mpr hklen, hk⟩
  rw [← List.find?_isSome] at this
  rw [show fireIdxFrom cs b f = List.find? (flatFiresAt cs b f) (List.range cs.length) from rfl] at hnone
  rw [hnone] at this
  simp at this

theorem fireIdxFrom_append (l rest : List Char) : ∀ (b : Int) (f : Bool),
    fireIdxFrom (l ++ rest) b f =
      match fireIdxFrom l b f with
      | some k => some k
      | none => (fireIdxFrom rest (b + braceBal l) (f || l.contains lbr)).map (· + l.length) := by
  induction l with
  | nil =>
    intro b f
    rw [fireIdxFrom_nil]
    have h1 : b + braceBal [] = b := by rw [braceBal_nil]; omega
    have h2 : (f || ([] : List Char).contains lbr) = f := by
      simp [List.contains, List.elem]
    simp only [List.nil_append, h1, h2, List.length_nil]
    cases hx : fireIdxFrom rest b f with
    | none => rfl
    | some k => simp
  | cons c l2 ih =>
    intro b f
    rw [show (c :: l2) ++ rest = c :: (l2 ++ rest) from rfl]
    rw [fireIdxFrom_cons, fireIdxFrom_cons]
    have hzero : flatFiresAt (c :: (l2 ++ rest)) b f 0 = flatFiresAt (c :: l2) b f 0 := by
      rw [flatFiresAt_zero, flatFiresAt_zero]
    rw [hzero]
    by_cases h0 : flatFiresAt (c :: l2) b f 0 = true
    · rw [if_pos h0, if_pos h0]
    · rw [if_neg h0, if_neg h0]
      rw [ih (b + charBal c) (f || (c = lbr : Bool))]
      cases hfi : fireIdxFrom l2 (b + charBal c) (f || (c = lbr : Bool)) with
      | some k => rfl
      | none =>
        simp only []
        rw [Option.map_map]
        have hb : b + charBal c + braceBal l2 = b + braceBal (c :: l2) := by
          rw [braceBal_cons]; omega
        have hcsimp : (lbr == c) = (c = lbr : Bool) := by
          by_cases h : c = lbr
          · simp [h]
          · simp only [h, decide_False]
            simp only [beq_eq_false_iff_ne, ne_eq]
            exact fun hc => h hc.symm
        have hf : (f || (c = lbr : Bool) || l2.contains lbr) = (f || (c :: l2).contains lbr) := by
          rw [List.contains_cons, hcsimp, Bool.or_assoc]
        have hlen : ((· + 1) ∘ (· + l2.length) : Nat → Nat) = (· + (c :: l2).length) := by
          funext k
          simp only [Function.comp_apply, List.length_cons]
          omega
        rw [hb, hf, hlen]
        simp only [Option.map_none']

theorem findFunctionEndAux_eq (ls : List (List Char)) : ∀ (i : Nat) (b : Int) (f : Bool),
    findFunctionEndAux ls i b f =
      (fireIdxFrom ls.flatten b f).map (fun k => i + lineIdxOfPos ls k) := by
  induction ls with
  | nil =>
    intro i b f
    simp only [findFunctionEndAux, List.flatten_nil, fireIdxFrom_nil, Option.map_none']
  | cons l ls2 ih =>
    intro i b f
    rw [List.flatten_cons, fireIdxFrom_append]
    cases hfi : fireIdxFrom l b f with
    | some k =>
      have hk : k < l.length := fireIdxFrom_lt l b f k hfi
      have hfire : ∃ k2, flatFiresAt l b f k2 = true := ⟨k, List.find?_some hfi⟩
      have hl : (lineScan l b f).1 = true := (lineScan_spec l b f).1.mpr hfire
      simp only [findFunctionEndAux]
      cases hls : lineScan l b f with
      | mk fl st =>
        rw [hls] at hl
        simp only [] at hl
        subst hl
        simp only [lineIdxOfPos, if_pos hk, Option.map_some']
        simp
    | none =>
      have hnf : (lineScan l b f).1 = false := by
        cases hlt : (lineScan l b f).1 with
        | false => rfl
        | true =>
          obtain ⟨k, hk⟩ := (lineScan_spec l b f).1.mp hlt
          exact absurd hfi (fireIdxFrom_isSome_of_fire l b f ⟨k, hk⟩)
      have hstate := (lineScan_spec l b f).2 hnf
      simp only [findFunctionEndAux, hstate]
      rw [ih (i + 1) (b + braceBal l) (f || l.contains lbr)]
      cases hfx : fireIdxFrom ls2.flatten (b + braceBal l) (f || l.contains lbr) with
      | none => rfl
      | some k =>
        simp only [Option.map_some']
        have harith : i + lineIdxOfPos (l :: ls2) (k + l.length) = i + 1 + lineIdxOfPos ls2 k := by
          simp only [lineIdxOfPos]
          rw [if_neg (by omega)]
          have : k + l.length - l.length = k := by omega
          rw [this]
          omega
        rw [harith]

theorem specFiresAt_eq_flat (cs : List Char) (k : Nat) :
    specFiresAt cs k = flatFiresAt cs 0 false k := by
  unfold specFiresAt flatFiresAt
  have hd : decide (0 + braceBal (cs.take (k + 1)) = 0) = decide (braceBal (cs.take (k + 1)) = 0) :=
    decide_eq_decide.mpr (by omega)
  rw [hd]
  by_cases hA : cs.get? k = some rbr
  · by_cases hB : braceBal (cs.take (k + 1)) = 0
    · have hk1 : ∃ k2, k = k2 + 1 := by
        cases k with
        | zero =>
          exfalso
          have htake : cs.take 1 = [rbr] := by
            rw [List.take_succ, List.take_zero]
            rw [← List.get?_eq_getElem?, hA]
            rfl
          rw [htake] at hB
          have : braceBal [rbr] = -1 := by
            rw [show ([rbr] : List Char) = rbr :: ([] : List Char) from rfl,
              braceBal_cons, braceBal_nil, charBal_rbr]
            omega
          omega
        | succ k2 => exact ⟨k2, rfl⟩
      obtain ⟨k2, rfl⟩ := hk1
      have htake : cs.take (k2 + 1 + 1) = cs.take (k2 + 1) ++ [rbr] := by
        rw [List.take_succ]
        rw [← List.get?_eq_getElem?, hA]
        rfl
      have hbal1 : braceBal (cs.take (k2 + 1)) = 1 := by
        have := hB
        rw [htake, braceBal_append] at this
        have hr : braceBal [rbr] = -1 := by
          rw [show ([rbr] : List Char) = rbr :: ([] : List Char) from rfl,
            braceBal_cons, braceBal_nil, charBal_rbr]
          omega
        omega
      have hwp : wentPositive cs (k2 + 1) = true := by
        unfold wentPositive
        rw [List.any_eq_true]
        exact ⟨k2, List.mem_range.mpr (by omega), by simp [hbal1]⟩
      have hcont : (cs.take (k2 + 1 + 1)).contains lbr = true := by
        have hcountr : 0 < List.count rbr (cs.take (k2 + 1 + 1)) := by
          rw [htake, List.count_append]
          have : List.count rbr [rbr] = 1 := by simp
          omega
        have hcountl : 0 < List.count lbr (cs.take (k2 + 1 + 1)) := by
          have := hB
          unfold braceBal at this
          omega
        have hmem : lbr ∈ cs.take (k2 + 1 + 1) := List.count_pos_iff.mp hcountl
        exact List.elem_iff.mpr hmem
      have hA2 : cs[k2 + 1]? = some rbr := by
        rw [← List.get?_eq_getElem?]
        exact hA
      have hmem2 : lbr ∈ cs.take (k2 + 1 + 1) := by
        have := hcont
        exact List.elem_iff.mp this
      simp [hA2, hB, hwp, hmem2]
    · simp [hB]
  · have hA2 : ¬cs[k]? = some rbr := by
      rw [← List.get?_eq_getElem?]
      exact hA
    simp [hA2]

theorem findFunctionEnd_eq_spec (lines : List (List Char)) (start : Nat) :
    findFunctionEnd lines start = funcEndSpec lines start := by
  unfold findFunctionEnd funcEndSpec fireIdxSpec
  rw [findFunctionEndAux_eq]
  have : fireIdxFrom (lines.drop start).flatten 0 false =
      List.find? (specFiresAt (lines.drop start).flatten)
        (List.range (lines.drop start).flatten.length) := by
    unfold fireIdxFrom
    congr 1
    funext k
    exact (specFiresAt_eq_flat (lines.drop start).flatten k).symm
  rw [this]

/-! ### Behavior of the removal handlers -/

theorem removeUnusedImport_fail (lines : List (List Char)) (i : Issue) (r msg : List Char)
    (h : removeUnusedImport lines i = .fail r msg) : r = joinNl lines := by
  simp only [removeUnusedImport] at h
  split at h
  · cases h; rfl
  · split at h
    · cases h; rfl
    · cases h

theorem removeUnusedVariable_fail (lines : List (List Char)) (i : Issue) (r msg : List Char)
    (h : removeUnusedVariable lines i = .fail r msg) : r = joinNl lines := by
  simp only [removeUnusedVariable] at h
  split at h
  · cases h; rfl
  · split at h
    · cases h
    · cases h; rfl

theorem removeUnusedFunction_fail (lines : List (List Char)) (i : Issue) (r msg : List Char)
    (h : removeUnusedFunction lines i = .fail r msg) : r = joinNl lines := by
  simp only [removeUnusedFunction] at h
  split at h
  · cases h; rfl
  · split at h
    · cases h; rfl
    · cases h

theorem removeIssue_fail_eq (c : List Char) (i : Issue) (r msg : List Char)
    (h : removeIssue c i = .fail r msg) : r = c := by
  unfold removeIssue at h
  cases ht : i.type with
  | unusedImport =>
    rw [ht] at h
    rw [removeUnusedImport_fail _ _ _ _ h]
    exact joinNl_splitOnChar c
  | unusedVariable =>
    rw [ht] at h
    rw [removeUnusedVariable_fail _ _ _ _ h]
    exact joinNl_splitOnChar c
  | unusedFunction =>
    rw [ht] at h
    rw [removeUnusedFunction_fail _ _ _ _ h]
    exact joinNl_splitOnChar c
  | unusedComponent =>
    rw [ht] at h
    rw [removeUnusedFunction_fail _ _ _ _ h]
    exact joinNl_splitOnChar c
  | unusedRoute =>
    rw [ht] at h
    cases h
    rfl

theorem findFunctionEnd_ge (lines : List (List Char)) (s e : Nat)
    (h : findFunctionEnd lines s = some e) : s ≤ e := by
  unfold findFunctionEnd at h
  rw [findFunctionEndAux_eq] at h
  cases hx : fireIdxFrom (lines.drop s).flatten 0 false with
  | none => rw [hx] at h; cases h
  | some k =>
    rw [hx, Option.map_some'] at h
    have : s + lineIdxOfPos (lines.drop s) k = e := by
      exact Option.some.injEq _ _ ▸ h
    omega

theorem removeUnusedImport_ok (lines : List (List Char)) (i : Issue) (c2 : List Char)
    (h : removeUnusedImport lines i = .ok c2) :
    ∃ a : Nat, (a : Int) = i.line - 1 ∧
      c2 = joinNl (lines.take a ++ lines.drop (a + 1)) := by
  simp only [removeUnusedImport] at h
  split at h
  · cases h
  next hrange =>
    split at h
    · cases h
    · cases h
      simp only [Bool.or_eq_true, decide_eq_true_eq, not_or] at hrange
      refine ⟨(i.line - 1).toNat, ?_, rfl⟩
      rw [Int.toNat_of_nonneg (by omega)]

theorem removeUnusedVariable_ok (lines : List (List Char)) (i : Issue) (c2 : List Char)
    (h : removeUnusedVariable lines i = .ok c2) :
    ∃ a : Nat, (a : Int) = i.line - 1 ∧
      c2 = joinNl (lines.take a ++ lines.drop (a + 1)) := by
  simp only [removeUnusedVariable] at h
  split at h
  · cases h
  next hrange =>
    split at h
    · cases h
      simp only [Bool.or_eq_true, decide_eq_true_eq, not_or] at hrange
      refine ⟨(i.line - 1).toNat, ?_, rfl⟩
      rw [Int.toNat_of_nonneg (by omega)]
    · cases h

theorem removeUnusedFunction_ok (lines : List (List Char)) (i : Issue) (c2 : List Char)
    (h : removeUnusedFunction lines i = .ok c2) :
    ∃ (a e : Nat), (a : Int) = i.line - 1 ∧ a ≤ e ∧
      c2 = joinNl (lines.take a ++ lines.drop (e + 1)) := by
  simp only [removeUnusedFunction] at h
  split at h
  · cases h
  next hrange =>
    split at h
    · cases h
    next e hfe =>
      cases h
      simp only [Bool.or_eq_true, decide_eq_true_eq, not_or] at hrange
      refine ⟨(i.line - 1).toNat, e, ?_, ?_, rfl⟩
      · rw [Int.toNat_of_nonneg (by omega)]
      · exact findFunctionEnd_ge lines _ e hfe

theorem removeIssue_ok_splice (c : List Char) (i : Issue) (c2 : List Char)
    (h : removeIssue c i = .ok c2) :
    ∃ (a e : Nat), (a : Int) = i.line - 1 ∧ a ≤ e ∧
      c2 = joinNl ((linesOf c).take a ++ (linesOf c).drop (e + 1)) := by
  unfold removeIssue at h
  cases ht : i.type with
  | unusedImport =>
    rw [ht] at h
    obtain ⟨a, ha, hc⟩ := removeUnusedImport_ok _ _ _ h
    exact ⟨a, a, ha, le_refl a, hc⟩
  | unusedVariable =>
    rw [ht] at h
    obtain ⟨a, ha, hc⟩ := removeUnusedVariable_ok _ _ _ h
    exact ⟨a, a, ha, le_refl a, hc⟩
  | unusedFunction =>
    rw [ht] at h
    exact removeUnusedFunction_ok _ _ _ h
  | unusedComponent =>
    rw [ht] at h
    exact removeUnusedFunction_ok _ _ _ h
  | unusedRoute =>
    rw [ht] at h
    cases h

theorem linesOf_no_nl (c : List Char) : ∀ x ∈ linesOf c, '\n' ∉ x :=
  mem_splitOnChar_not_sep '\n' c

theorem linesOf_eq_single_empty (r : List Char) (h : linesOf r = [[]]) : r = [] := by
  have := joinNl_splitOnChar r
  rw [show linesOf r = splitOnChar '\n' r from rfl] at h
  rw [h] at this
  exact this.symm

theorem take_ne_nil (l : List (List Char)) (a : Nat) (hl : l ≠ []) (ha : 1 ≤ a) :
    l.take a ≠ [] := by
  cases l with
  | nil => exact absurd rfl hl
  | cons x t =>
    cases a with
    | zero => omega
    | succ a2 => simp

theorem linesOf_joinNl (ls : List (List Char)) (hne : ls ≠ [])
    (h : ∀ x ∈ ls, '\n' ∉ x) : linesOf (joinNl ls) = ls :=
  splitOnChar_joinNl ls hne h

theorem splice_no_nl (c : List Char) (a e : Nat) :
    ∀ x ∈ (linesOf c).take a ++ (linesOf c).drop e, '\n' ∉ x := by
  intro x hx
  rcases List.mem_append.mp hx with hx | hx
  · exact linesOf_no_nl c x ((List.take_sublist a (linesOf c)).subset hx)
  · exact linesOf_no_nl c x ((List.drop_sublist e (linesOf c)).subset hx)

theorem removeIssue_sublist (c c2 : List Char) (i : Issue)
    (h : removeIssue c i = .ok c2) :
    (linesOf c2).Sublist (linesOf c) ∨ c2 = [] := by
  obtain ⟨a, e, _, hae, hc2⟩ := removeIssue_ok_splice c i c2 h
  by_cases hp : (linesOf c).take a ++ (linesOf c).drop (e + 1) = []
  · right
    rw [hc2, hp]
    rfl
  · left
    rw [hc2, linesOf_joinNl _ hp (splice_no_nl c a (e + 1))]
    exact sublist_take_append_drop (linesOf c) a (e + 1) (by omega)

theorem removeIssue_take (c c2 : List Char) (i : Issue) (k : Nat)
    (hk : (k : Int) < i.line) (h : removeIssue c i = .ok c2) :
    (linesOf c2).take k = (linesOf c).take k := by
  obtain ⟨a, e, ha, hae, hc2⟩ := removeIssue_ok_splice c i c2 h
  have hka : k ≤ a := by omega
  cases k with
  | zero => simp
  | succ k2 =>
    have hpne : (linesOf c).take a ++ (linesOf c).drop (e + 1) ≠ [] := by
      intro hp
      have h1 : (linesOf c).take a = [] := by
        cases hx : (linesOf c).take a with
        | nil => rfl
        | cons y t => rw [hx] at hp; simp at hp
      exact take_ne_nil (linesOf c) a (splitOnChar_ne_nil '\n' c) (by omega) h1
    rw [hc2, linesOf_joinNl _ hpne (splice_no_nl c a (e + 1))]
    exact take_take_append_drop (linesOf c) (k2 + 1) a (e + 1) hka (by omega)

theorem getD_single_empty (n : Nat) : ([[]] : List (List Char)).getD n [] = [] := by
  cases n with
  | zero => rfl
  | succ n2 => rfl

theorem containsSub_nil_cons (c : Char) (t : List Char) : containsSub [] (c :: t) = false := by
  rw [containsSub.eq_def]
  simp [List.isPrefixOf]

theorem findFunctionEnd_single_empty (a : Nat) : findFunctionEnd [[]] a = none := by
  unfold findFunctionEnd
  cases a with
  | zero => rfl
  | succ a2 =>
    have : ([[]] : List (List Char)).drop (a2 + 1) = [] := by
      simp
    rw [this]
    rfl

theorem removeIssue_nil_not_ok (i : Issue) (c2 : List Char) :
    removeIssue [] i ≠ .ok c2 := by
  intro h
  have hlines : linesOf [] = [[]] := rfl
  unfold removeIssue at h
  rw [hlines] at h
  cases ht : i.type with
  | unusedImport =>
    rw [ht] at h
    simp only [removeUnusedImport] at h
    split at h
    · cases h
    · split at h
      next hcond =>
        · cases h
      next hcond =>
        rw [getD_single_empty] at hcond
        simp [List.isPrefixOf] at hcond
  | unusedVariable =>
    rw [ht] at h
    simp only [removeUnusedVariable] at h
    split at h
    · cases h
    · split at h
      next hcond =>
        rw [getD_single_empty] at hcond
        have e1 : containsSub [] ("const ".data ++ i.name) = false :=
          containsSub_nil_cons 'c' ("onst ".data ++ i.name)
        have e2 : containsSub [] ("let ".data ++ i.name) = false :=
          containsSub_nil_cons 'l' ("et ".data ++ i.name)
        have e3 : containsSub [] ("var ".data ++ i.name) = false :=
          containsSub_nil_cons 'v' ("ar ".data ++ i.name)
        rw [e1, e2, e3] at hcond
        simp at hcond
      · cases h
  | unusedFunction =>
    rw [ht] at h
    simp only [removeUnusedFunction] at h
    split at h
    · cases h
    · rw [findFunctionEnd_single_empty] at h
      cases h
  | unusedComponent =>
    rw [ht] at h
    simp only [removeUnusedComponent, removeUnusedFunction] at h
    split at h
    · cases h
    · rw [findFunctionEnd_single_empty] at h
      cases h
  | unusedRoute =>
    rw [ht] at h
    cases h

theorem applyStep_content (st : FileProc) (i : Issue) :
    (applyStep st i).content = st.content ∨
      removeIssue st.content i = .ok (applyStep st i).content := by
  unfold applyStep
  cases hr : removeIssue st.content i with
  | ok c2 => right; rfl
  | fail c2 msg => left; rfl

theorem foldl_applyStep_content (is : List Issue) : ∀ (st : FileProc),
    (is.foldl applyStep st).content = (applyIssues st.content is).content := by
  induction is with
  | nil => intro st; rfl
  | cons i t ih =>
    intro st
    rw [List.foldl_cons]
    rw [show applyIssues st.content (i :: t) =
      (i :: t).foldl applyStep ⟨st.content, 0, false, []⟩ from rfl]
    rw [List.foldl_cons, ih (applyStep st i), ih (applyStep ⟨st.content, 0, false, []⟩ i)]
    have : (applyStep st i).content = (applyStep ⟨st.content, 0, false, []⟩ i).content := by
      unfold applyStep
      cases hr : removeIssue st.content i with
      | ok c2 => rfl
      | fail c2 msg => rfl
    rw [this]

theorem applyIssues_cons_content (c : List Char) (i : Issue) (t : List Issue) :
    (applyIssues c (i :: t)).content =
      (applyIssues (applyStep ⟨c, 0, false, []⟩ i).content t).content := by
  rw [show applyIssues c (i :: t) = (i :: t).foldl applyStep ⟨c, 0, false, []⟩ from rfl]
  rw [List.foldl_cons, foldl_applyStep_content]

theorem applyIssues_nil_content (t : List Issue) : (applyIssues [] t).content = [] := by
  induction t with
  | nil => rfl
  | cons i t2 ih =>
    rw [applyIssues_cons_content]
    have : (applyStep ⟨[], 0, false, []⟩ i).content = [] := by
      unfold applyStep
      cases hr : removeIssue [] i with
      | ok c2 => exact absurd hr (removeIssue_nil_not_ok i c2)
      | fail c2 msg => rfl
    rw [this, ih]

theorem applyIssues_sublist (is : List Issue) : ∀ (c : List Char),
    (linesOf (applyIssues c is).content).Sublist (linesOf c) ∨
      (applyIssues c is).content = [] := by
  induction is with
  | nil => intro c; left; exact List.Sublist.refl _
  | cons i t ih =>
    intro c
    rw [applyIssues_cons_content]
    rcases applyStep_content ⟨c, 0, false, []⟩ i with hsame | hok
    · rw [hsame]
      exact ih c
    · rcases removeIssue_sublist c _ i hok with hs | hs
      · rcases ih (applyStep ⟨c, 0, false, []⟩ i).content with hrec | hrec
        · left
          exact hrec.trans hs
        · right
          exact hrec
      · right
        rw [hs, applyIssues_nil_content]

theorem applyIssues_take (is : List Issue) : ∀ (c : List Char) (k : Nat),
    (∀ i ∈ is, (k : Int) < i.line) →
    (linesOf (applyIssues c is).content).take k = (linesOf c).take k := by
  induction is with
  | nil => intro c k _; rfl
  | cons i t ih =>
    intro c k hk
    rw [applyIssues_cons_content]
    rcases applyStep_content ⟨c, 0, false, []⟩ i with hsame | hok
    · rw [hsame]
      exact ih c k (fun j hj => hk j (List.mem_cons_of_mem i hj))
    · have hstep := removeIssue_take c _ i k (hk i (by simp)) hok
      rw [ih _ k (fun j hj => hk j (List.mem_cons_of_mem i hj)), hstep]

/-! ### The descending sort of `processFile` -/

theorem insertDesc_perm (x : Issue) : ∀ (l : List Issue), (insertDesc x l).Perm (x :: l) := by
  intro l
  induction l with
  | nil => exact List.Perm.refl _
  | cons y ys ih =>
    unfold insertDesc
    by_cases h : x.line < y.line
    · rw [if_pos h]
      exact (List.Perm.cons y ih).trans (List.Perm.swap x y ys)
    · rw [if_neg h]

theorem sortByLineDesc_perm (is : List Issue) : (sortByLineDesc is).Perm is := by
  induction is with
  | nil => exact List.Perm.refl _
  | cons i t ih =>
    unfold sortByLineDesc
    rw [List.foldr_cons]
    exact (insertDesc_perm i _).trans (List.Perm.cons i ih)

theorem mem_insertDesc (x z : Issue) (l : List Issue) (h : z ∈ insertDesc x l) :
    z = x ∨ z ∈ l := by
  rcases List.mem_cons.mp ((insertDesc_perm x l).mem_iff.mp h) with h2 | h2
  · exact Or.inl h2
  · exact Or.inr h2

theorem insertDesc_sorted (x : Issue) : ∀ (l : List Issue),
    l.Pairwise (fun a b => b.line ≤ a.line) →
    (insertDesc x l).Pairwise (fun a b => b.line ≤ a.line) := by
  intro l
  induction l with
  | nil => intro _; exact List.pairwise_singleton _ x
  | cons y ys ih =>
    intro h
    rw [List.pairwise_cons] at h
    unfold insertDesc
    by_cases hxy : x.line < y.line
    · rw [if_pos hxy]
      rw [List.pairwise_cons]
      constructor
      · intro z hz
        rcases mem_insertDesc x z ys hz with rfl | hz2
        · omega
        · exact h.1 z hz2
      · exact ih h.2
    · rw [if_neg hxy]
      rw [List.pairwise_cons]
      constructor
      · intro z hz
        rcases List.mem_cons.mp hz with rfl | hz2
        · omega
        · have := h.1 z hz2
          omega
      · rw [List.pairwise_cons]
        exact h

theorem sortByLineDesc_sorted (is : List Issue) :
    (sortByLineDesc is).Pairwise (fun a b => b.line ≤ a.line) := by
  induction is with
  | nil => exact List.Pairwise.nil
  | cons i t ih =>
    unfold sortByLineDesc
    rw [List.foldr_cons]
    exact insertDesc_sorted i _ ih

theorem foldl_applyStep_decomp (is : List Issue) : ∀ (c : List Char) (n : Nat)
    (b : Bool) (e : List (List Char)),
    is.foldl applyStep ⟨c, n, b, e⟩ =
      ⟨(applyIssues c is).content, n + (applyIssues c is).removedCount,
        b || (applyIssues c is).modified, e ++ (applyIssues c is).errors⟩ := by
  induction is with
  | nil =>
    intro c n b e
    simp [applyIssues]
  | cons i t ih =>
    intro c n b e
    have hrw : applyIssues c (i :: t) = t.foldl applyStep (applyStep ⟨c, 0, false, []⟩ i) := by
      rw [show applyIssues c (i :: t) = (i :: t).foldl applyStep ⟨c, 0, false, []⟩ from rfl]
      rw [List.foldl_cons]
    rw [List.foldl_cons, hrw]
    cases hr : removeIssue c i with
    | ok c2 =>
      have h1 : applyStep ⟨c, n, b, e⟩ i = ⟨c2, n + 1, true, e⟩ := by
        simp only [applyStep, hr]
      have h2 : applyStep ⟨c, 0, false, []⟩ i = ⟨c2, 0 + 1, true, []⟩ := by
        simp only [applyStep, hr]
      rw [h1, h2, ih, ih]
      simp [FileProc.mk.injEq]
      omega
    | fail c3 msg =>
      have h1 : applyStep ⟨c, n, b, e⟩ i =
          ⟨c, n, b, e ++ [i.name ++ ": ".data ++ msg]⟩ := by
        simp only [applyStep, hr]
      have h2 : applyStep ⟨c, 0, false, []⟩ i =
          ⟨c, 0, false, [] ++ [i.name ++ ": ".data ++ msg]⟩ := by
        simp only [applyStep, hr]
      rw [h1, h2, ih, ih]
      simp [FileProc.mk.injEq]

/-! ### Write behavior of `processFile` and `removeDeadCode` -/

theorem processFile_read_some (fs : FS) (now : Nat) (path : List Char)
    (issues : List Issue) (opts : RemovalOptions) (orig : List Char)
    (hr : fsRead fs path = some orig) :
    processFile fs now path issues opts =
      ⟨(applyIssues orig (sortByLineDesc issues)).removedCount,
       (applyIssues orig (sortByLineDesc issues)).modified,
       (applyIssues orig (sortByLineDesc issues)).errors,
       (if opts.createBackup && !opts.dryRun then [(backupName path now, orig)] else []) ++
         (if (applyIssues orig (sortByLineDesc issues)).modified && !opts.dryRun then
           [(path, (applyIssues orig (sortByLineDesc issues)).content)] else [])⟩ := by
  unfold processFile
  rw [hr]

theorem processFile_read_none (fs : FS) (now : Nat) (path : List Char)
    (issues : List Issue) (opts : RemovalOptions) (hr : fsRead fs path = none) :
    processFile fs now path issues opts =
      ⟨0, false, ["File processing error: file read failed".data], []⟩ := by
  unfold processFile
  rw [hr]

theorem processFile_dryRun_writes (fs : FS) (now : Nat) (path : List Char)
    (issues : List Issue) (opts : RemovalOptions) (h : opts.dryRun = true) :
    (processFile fs now path issues opts).writes = [] := by
  cases hread : fsRead fs path with
  | none => rw [processFile_read_none fs now path issues opts hread]
  | some orig =>
    rw [processFile_read_some fs now path issues opts orig hread]
    simp [h]

theorem processFile_count_eq (fsA fsB : FS) (now : Nat) (path : List Char)
    (issues : List Issue) (optsA optsB : RemovalOptions)
    (h : fsRead fsA path = fsRead fsB path) :
    (processFile fsA now path issues optsA).removedCount =
      (processFile fsB now path issues optsB).removedCount := by
  cases hread : fsRead fsB path with
  | none =>
    rw [processFile_read_none fsA now path issues optsA (h.trans hread),
      processFile_read_none fsB now path issues optsB hread]
  | some orig =>
    rw [processFile_read_some fsA now path issues optsA orig (h.trans hread),
      processFile_read_some fsB now path issues optsB orig hread]

theorem processFile_writes_keys (fs : FS) (now : Nat) (path : List Char)
    (issues : List Issue) (opts : RemovalOptions) (h : opts.createBackup = false) :
    ∀ w ∈ (processFile fs now path issues opts).writes, w.1 = path := by
  cases hread : fsRead fs path with
  | none =>
    rw [processFile_read_none fs now path issues opts hread]
    intro w hw
    simp at hw
  | some orig =>
    rw [processFile_read_some fs now path issues opts orig hread]
    intro w hw
    have hw2 : w ∈ ((if opts.createBackup && !opts.dryRun then
        [(backupName path now, orig)] else []) ++
        (if (applyIssues orig (sortByLineDesc issues)).modified && !opts.dryRun then
          [(path, (applyIssues orig (sortByLineDesc issues)).content)] else [])) := hw
    rw [h] at hw2
    simp only [Bool.false_and] at hw2
    rw [if_neg (by simp)] at hw2
    simp only [List.nil_append] at hw2
    by_cases hm : ((applyIssues orig (sortByLineDesc issues)).modified && !opts.dryRun) = true
    · rw [if_pos hm] at hw2
      simp only [List.mem_singleton] at hw2
      rw [hw2]
    · rw [if_neg hm] at hw2
      simp at hw2

theorem runGroups_dryRun (now : Nat) (opts : RemovalOptions)
    (confirm : List Char → Bool) (h : opts.dryRun = true) :
    ∀ (groups : List (List Char × List Issue)) (fs : FS),
    (runGroups now opts confirm groups fs).2.2.2.2 = [] ∧
      (runGroups now opts confirm groups fs).2.2.2.1 = fs := by
  intro groups
  induction groups with
  | nil => intro fs; exact ⟨rfl, rfl⟩
  | cons g rest ih =>
    intro fs
    obtain ⟨p, gis⟩ := g
    unfold runGroups
    by_cases hcf : (opts.confirmEach && !confirm p) = true
    · rw [if_pos hcf]
      exact ih fs
    · rw [if_neg hcf]
      have hw : (processFile fs now p gis opts).writes = [] :=
        processFile_dryRun_writes fs now p gis opts h
      simp only [hw]
      have happ : applyWrites fs [] = fs := rfl
      rw [happ]
      refine ⟨?_, (ih fs).2⟩
      rw [(ih fs).1]
      rfl

theorem runGroups_count_invariant (now : Nat) (optsA optsB : RemovalOptions)
    (confirm : List Char → Bool) (hc : optsA.confirmEach = optsB.confirmEach)
    (hA : optsA.dryRun = true) (hB : optsB.createBackup = false) :
    ∀ (groups : List (List Char × List Issue)) (fsA fsB : FS),
    (groups.map Prod.fst).Nodup →
    (∀ p ∈ groups.map Prod.fst, fsRead fsA p = fsRead fsB p) →
    (runGroups now optsA confirm groups fsA).1 =
      (runGroups now optsB confirm groups fsB).1 := by
  intro groups
  induction groups with
  | nil => intro fsA fsB _ _; rfl
  | cons g rest ih =>
    intro fsA fsB hnd hreads
    obtain ⟨p, gis⟩ := g
    unfold runGroups
    rw [hc]
    by_cases hcf : (optsB.confirmEach && !confirm p) = true
    · rw [if_pos hcf, if_pos hcf]
      refine ih fsA fsB ?_ ?_
      · simp only [List.map_cons] at hnd
        exact (List.nodup_cons.mp hnd).2
      · intro q hq
        exact hreads q (by simp [hq])
    · rw [if_neg hcf, if_neg hcf]
      have hpread : fsRead fsA p = fsRead fsB p := hreads p (by simp)
      have hcount : (processFile fsA now p gis optsA).removedCount =
          (processFile fsB now p gis optsB).removedCount :=
        processFile_count_eq fsA fsB now p gis optsA optsB hpread
      have hwA : (processFile fsA now p gis optsA).writes = [] :=
        processFile_dryRun_writes fsA now p gis optsA hA
      have hrec : (runGroups now optsA confirm rest (applyWrites fsA (processFile fsA now p gis optsA).writes)).1 =
          (runGroups now optsB confirm rest (applyWrites fsB (processFile fsB now p gis optsB).writes)).1 := by
        rw [hwA]
        have happ : applyWrites fsA [] = fsA := rfl
        rw [happ]
        refine ih fsA _ ?_ ?_
        · simp only [List.map_cons] at hnd
          exact (List.nodup_cons.mp hnd).2
        · intro q hq
          have hqp : q ≠ p := by
            simp only [List.map_cons] at hnd
            intro hqp
            exact (List.nodup_cons.mp hnd).1 (hqp ▸ hq)
          rw [fsRead_applyWrites_not_mem fsB _ q ?keys]
          · exact hreads q (by simp [hq])
          case keys =>
            intro w hw
            rw [processFile_writes_keys fsB now p gis optsB hB w hw]
            exact fun hpq => hqp hpq.symm
      simp only []
      omega

theorem groupIssuesByFile_keys (issues : List Issue) :
    (groupIssuesByFile issues).map Prod.fst = groupKeys issues := by
  unfold groupIssuesByFile
  rw [List.map_map]
  have : (Prod.fst ∘ fun p => (p, issues.filter (fun i => i.filePath = p))) = id := by
    funext p
    rfl
  rw [this, List.map_id]

/-- Claim C4: when `dryRun` is set, `removeDeadCode` performs no file writes
at all — the disk is byte-for-byte unchanged and no backup file is created —
while the returned `RemovalResult` still counts exactly the removals the
corresponding non-dry run (which must actually write) would have applied. -/
theorem dryRun_writes_nothing_and_counts (fs : FS) (now : Nat) (issues : List Issue)
    (opts : RemovalOptions) (confirm : List Char → Bool) (h : opts.dryRun = true) :
    (removeDeadCode fs now issues opts confirm).writes = [] ∧
    (removeDeadCode fs now issues opts confirm).fs = fs ∧
    (removeDeadCode fs now issues opts confirm).result.removedCount =
      (removeDeadCode fs now issues
        { opts with dryRun := false, createBackup := false } confirm).result.removedCount := by
  have hfilter : filteredIssues issues { opts with dryRun := false, createBackup := false } =
      filteredIssues issues opts := rfl
  unfold removeDeadCode
  rw [hfilter]
  by_cases he : (filteredIssues issues opts).isEmpty = true
  · rw [if_pos he, if_pos he]
    exact ⟨rfl, rfl, rfl⟩
  · rw [if_neg he, if_neg he]
    refine ⟨?_, ?_, ?_⟩
    · exact (runGroups_dryRun now opts confirm h (groupIssuesByFile (filteredIssues issues opts)) fs).1
    · exact (runGroups_dryRun now opts confirm h (groupIssuesByFile (filteredIssues issues opts)) fs).2
    · apply runGroups_count_invariant now opts { opts with dryRun := false, createBackup := false }
        confirm rfl h rfl
      · rw [groupIssuesByFile_keys]
        exact groupKeys_nodup _
      · intro p _
        rfl

/-- Witness for claim C4 at a concrete disk and finding: the dry run leaves
the one-file disk untouched and still reports the one removal the wet run
applies. -/
theorem dryRun_writes_nothing_and_counts_witness :
    (({ createBackup := true, confirmEach := false, onlyHighConfidence := false,
        dryRun := true } : RemovalOptions).dryRun = true) ∧
    (removeDeadCode [("b.ts".data, "import a from \"m\";\nkeep();".data)] 5
      [{ type := .unusedImport, filePath := "b.ts".data, relativePath := "b.ts".data,
         line := 1, column := 1, name := "a".data, description := [],
         confidence := .high, category := .deadCode }]
      { createBackup := true, confirmEach := false, onlyHighConfidence := false,
        dryRun := true } (fun _ => true)).writes = [] ∧
    (removeDeadCode [("b.ts".data, "import a from \"m\";\nkeep();".data)] 5
      [{ type := .unusedImport, filePath := "b.ts".data, relativePath := "b.ts".data,
         line := 1, column := 1, name := "a".data, description := [],
         confidence := .high, category := .deadCode }]
      { createBackup := true, confirmEach := false, onlyHighConfidence := false,
        dryRun := true } (fun _ => true)).result.removedCount = 1 := by
  refine ⟨rfl, ?_, ?_⟩
  · exact (dryRun_writes_nothing_and_counts [("b.ts".data, "import a from \"m\";\nkeep();".data)] 5
      [{ type := .unusedImport, filePath := "b.ts".data, relativePath := "b.ts".data,
         line := 1, column := 1, name := "a".data, description := [],
         confidence := .high, category := .deadCode }]
      { createBackup := true, confirmEach := false, onlyHighConfidence := false,
        dryRun := true } (fun _ => true) rfl).1
  · decide

/-- Counterexample to claim C2 as stated: with `createBackup = true` and
`dryRun = false`, `processFile` writes the backup before running the removal
loop, so a file whose single finding fails its safety check gets a backup
even though it is never modified — the backup is not written "only if that
file is actually modified". -/
theorem backup_written_without_modification :
    (processFile [("a.ts".data, "const x = 1;".data)] 5 "a.ts".data
      [{ type := .unusedImport, filePath := "a.ts".data, relativePath := "a.ts".data,
         line := 1, column := 1, name := "x".data, description := [],
         confidence := .high, category := .deadCode }]
      { createBackup := true, confirmEach := false, onlyHighConfidence := false,
        dryRun := false }).modified = false ∧
    (processFile [("a.ts".data, "const x = 1;".data)] 5 "a.ts".data
      [{ type := .unusedImport, filePath := "a.ts".data, relativePath := "a.ts".data,
         line := 1, column := 1, name := "x".data, description := [],
         confidence := .high, category := .deadCode }]
      { createBackup := true, confirmEach := false, onlyHighConfidence := false,
        dryRun := false }).writes =
      [("a.ts.backup.5".data, "const x = 1;".data)] := by
  constructor
  · decide
  · decide

/-- Claim C2 (amended): with `createBackup = true` and `dryRun = false`, for
each file it can read, `processFile` first writes a backup named
`<filePath>.backup.<timestamp-ms>` whose content equals byte-for-byte the
file's pre-modification content, before any write to the file itself; the
backup is written for every such file, whether or not the file ends up
modified. -/
theorem backup_precedes_overwrite (fs : FS) (now : Nat) (path : List Char)
    (issues : List Issue) (opts : RemovalOptions) (orig : List Char)
    (hb : opts.createBackup = true) (hd : opts.dryRun = false)
    (hr : fsRead fs path = some orig) :
    ∃ rest, (processFile fs now path issues opts).writes =
      (backupName path now, orig) :: rest ∧ ∀ w ∈ rest, w.1 = path := by
  rw [processFile_read_some fs now path issues opts orig hr]
  refine ⟨if (applyIssues orig (sortByLineDesc issues)).modified && !opts.dryRun then
      [(path, (applyIssues orig (sortByLineDesc issues)).content)] else [], ?_, ?_⟩
  · rw [hb, hd]
    rfl
  · intro w hw
    by_cases hm : ((applyIssues orig (sortByLineDesc issues)).modified && !opts.dryRun) = true
    · rw [if_pos hm] at hw
      simp only [List.mem_singleton] at hw
      rw [hw]
    · rw [if_neg hm] at hw
      simp at hw

/-- Witness for the amended claim C2: on a one-file disk with one removable
import, the write trace is exactly the backup (carrying the original
content) followed by the overwrite of the file. -/
theorem backup_precedes_overwrite_witness :
    (({ createBackup := true, confirmEach := false, onlyHighConfidence := false,
        dryRun := false } : RemovalOptions).createBackup = true) ∧
    (fsRead [("b.ts".data, "import a from \"m\";\nkeep();".data)] "b.ts".data =
      some "import a from \"m\";\nkeep();".data) ∧
    ∃ rest, (processFile [("b.ts".data, "import a from \"m\";\nkeep();".data)] 5 "b.ts".data
      [{ type := .unusedImport, filePath := "b.ts".data, relativePath := "b.ts".data,
         line := 1, column := 1, name := "a".data, description := [],
         confidence := .high, category := .deadCode }]
      { createBackup := true, confirmEach := false, onlyHighConfidence := false,
        dryRun := false }).writes =
      (backupName "b.ts".data 5, "import a from \"m\";\nkeep();".data) :: rest ∧
      ∀ w ∈ rest, w.1 = "b.ts".data := by
  refine ⟨rfl, by decide, ?_⟩
  exact backup_precedes_overwrite [("b.ts".data, "import a from \"m\";\nkeep();".data)] 5
    "b.ts".data
    [{ type := .unusedImport, filePath := "b.ts".data, relativePath := "b.ts".data,
       line := 1, column := 1, name := "a".data, description := [],
       confidence := .high, category := .deadCode }]
    { createBackup := true, confirmEach := false, onlyHighConfidence := false,
      dryRun := false } "import a from \"m\";\nkeep();".data rfl rfl (by decide)

/-- Claim C6: `processFile` runs its removal loop on the findings sorted by
line number in descending order (a permutation of the file's findings), and
after all removals every surviving line keeps its original text — the result's
lines are a subsequence of the original lines (or the file has become empty) —
and for any line bound `k` strictly below every finding's line number, the
first `k` lines are untouched, so deleting one finding's lines never shifts
or corrupts the target line of a not-yet-processed finding with a smaller
line number. -/
theorem removal_sorted_desc_preserves_lines (content : List Char)
    (issues : List Issue) (k : Nat) (hk : ∀ i ∈ issues, (k : Int) < i.line) :
    (sortByLineDesc issues).Pairwise (fun a b => b.line ≤ a.line) ∧
    (sortByLineDesc issues).Perm issues ∧
    ((linesOf (applyIssues content (sortByLineDesc issues)).content).Sublist
        (linesOf content) ∨
      (applyIssues content (sortByLineDesc issues)).content = []) ∧
    (linesOf (applyIssues content (sortByLineDesc issues)).content).take k =
      (linesOf content).take k := by
  refine ⟨sortByLineDesc_sorted issues, sortByLineDesc_perm issues,
    applyIssues_sublist (sortByLineDesc issues) content, ?_⟩
  refine applyIssues_take (sortByLineDesc issues) content k ?_
  intro i hi
  exact hk i ((sortByLineDesc_perm issues).subset hi)

/-- Witness for claim C6: two import findings on lines 2 and 3 of a
three-line file, bound `k = 1`; both import lines are removed and the first
line survives verbatim. -/
theorem removal_sorted_desc_preserves_lines_witness :
    (∀ i ∈ c6issues, ((1 : Nat) : Int) < i.line) ∧
    (linesOf (applyIssues c6content (sortByLineDesc c6issues)).content).take 1 =
      (linesOf c6content).take 1 := by
  refine ⟨by decide, ?_⟩
  exact (removal_sorted_desc_preserves_lines c6content c6issues 1 (by decide)).2.2.2

/-- Claim C7: removing an `unused-function` or `unused-component` finding
scans forward from the target line counting braces and stops exactly where
the claim-level description says — on the line where the counter returns to
zero after having gone positive at least once (`funcEndSpec`) — deleting the
inclusive line range from the declaration line to that line; when the balance
never returns to zero the finding fails with "Could not determine function
boundaries" and the content is left unchanged; the component handler is the
function handler. -/
theorem brace_scan_matches_spec (lines : List (List Char)) (issue : Issue) (start : Nat)
    (hrange : ¬(((issue.line - 1 : Int) < 0) ∨ ((lines.length : Int) ≤ issue.line - 1)))
    (hstart : (start : Int) = issue.line - 1) :
    findFunctionEnd lines start = funcEndSpec lines start ∧
    (findFunctionEnd lines start = none →
      removeUnusedFunction lines issue =
        .fail (joinNl lines) "Could not determine function boundaries".data) ∧
    (∀ e, findFunctionEnd lines start = some e →
      removeUnusedFunction lines issue =
        .ok (joinNl (lines.take start ++ lines.drop (e + 1)))) ∧
    removeUnusedComponent lines issue = removeUnusedFunction lines issue := by
  have hcond : ¬((decide ((issue.line - 1 : Int) < 0) ||
      decide ((lines.length : Int) ≤ issue.line - 1)) = true) := by
    simp only [Bool.or_eq_true, decide_eq_true_eq]
    exact hrange
  have htn : (issue.line - 1).toNat = start := by omega
  refine ⟨findFunctionEnd_eq_spec lines start, ?_, ?_, rfl⟩
  · intro hnone
    simp only [removeUnusedFunction]
    rw [if_neg hcond, htn, hnone]
  · intro e he
    simp only [removeUnusedFunction]
    rw [if_neg hcond, htn, he]

/-- Witness for claim C7 on a concrete four-line file: the brace scan of a
three-line function starting at line 1 stops at line index 2 and the handler
deletes exactly those three lines. -/
theorem brace_scan_matches_spec_witness :
    (¬((((testIssue .unusedFunction "a.ts".data 1 "f".data).line - 1 : Int) < 0) ∨
      (((linesOf "function f() \x7b\n  return 1;\n\x7d\nrest();".data).length : Int) ≤
        (testIssue .unusedFunction "a.ts".data 1 "f".data).line - 1))) ∧
    findFunctionEnd (linesOf "function f() \x7b\n  return 1;\n\x7d\nrest();".data) 0 = some 2 ∧
    (findFunctionEnd (linesOf "function f() \x7b\n  return 1;\n\x7d\nrest();".data) 0 =
      funcEndSpec (linesOf "function f() \x7b\n  return 1;\n\x7d\nrest();".data) 0 ∧
    ((findFunctionEnd (linesOf "function f() \x7b\n  return 1;\n\x7d\nrest();".data) 0 = none →
      removeUnusedFunction (linesOf "function f() \x7b\n  return 1;\n\x7d\nrest();".data)
          (testIssue .unusedFunction "a.ts".data 1 "f".data) =
        .fail (joinNl (linesOf "function f() \x7b\n  return 1;\n\x7d\nrest();".data))
          "Could not determine function boundaries".data) ∧
    (∀ e, findFunctionEnd (linesOf "function f() \x7b\n  return 1;\n\x7d\nrest();".data) 0 = some e →
      removeUnusedFunction (linesOf "function f() \x7b\n  return 1;\n\x7d\nrest();".data)
          (testIssue .unusedFunction "a.ts".data 1 "f".data) =
        .ok (joinNl ((linesOf "function f() \x7b\n  return 1;\n\x7d\nrest();".data).take 0 ++
          (linesOf "function f() \x7b\n  return 1;\n\x7d\nrest();".data).drop (e + 1)))) ∧
    removeUnusedComponent (linesOf "function f() \x7b\n  return 1;\n\x7d\nrest();".data)
        (testIssue .unusedFunction "a.ts".data 1 "f".data) =
      removeUnusedFunction (linesOf "function f() \x7b\n  return 1;\n\x7d\nrest();".data)
        (testIssue .unusedFunction "a.ts".data 1 "f".data))) := by
  refine ⟨by decide, by decide, ?_⟩
  exact brace_scan_matches_spec (linesOf "function f() \x7b\n  return 1;\n\x7d\nrest();".data)
    (testIssue .unusedFunction "a.ts".data 1 "f".data) 0 (by decide) (by decide)

/-- Claim C10: a finding whose 1-based line is outside the file's current
line range makes its removal handler fail with "Invalid line number", leaving
the content unchanged, and the removal loop records the failure as
`<name>: Invalid line number` in the errors and continues with the remaining
findings unaffected. -/
theorem invalid_line_fails_and_continues (content : List Char) (issue : Issue)
    (rest : List Issue)
    (hrange : ((issue.line - 1 : Int) < 0) ∨
      (((linesOf content).length : Int) ≤ issue.line - 1))
    (hty : issue.type ≠ .unusedRoute) :
    removeIssue content issue = .fail content "Invalid line number".data ∧
    applyIssues content (issue :: rest) =
      ⟨(applyIssues content rest).content, (applyIssues content rest).removedCount,
        (applyIssues content rest).modified,
        (issue.name ++ ": ".data ++ "Invalid line number".data) ::
          (applyIssues content rest).errors⟩ := by
  have hcond : (decide ((issue.line - 1 : Int) < 0) ||
      decide (((linesOf content).length : Int) ≤ issue.line - 1)) = true := by
    simp only [Bool.or_eq_true, decide_eq_true_eq]
    exact hrange
  have hjoin : joinNl (linesOf content) = content := joinNl_splitOnChar content
  have hfail : removeIssue content issue = .fail content "Invalid line number".data := by
    unfold removeIssue
    cases ht : issue.type with
    | unusedImport =>
      simp only [removeUnusedImport]
      rw [if_pos hcond, hjoin]
    | unusedVariable =>
      simp only [removeUnusedVariable]
      rw [if_pos hcond, hjoin]
    | unusedFunction =>
      simp only [removeUnusedFunction]
      rw [if_pos hcond, hjoin]
    | unusedComponent =>
      simp only [removeUnusedComponent, removeUnusedFunction]
      rw [if_pos hcond, hjoin]
    | unusedRoute => exact absurd ht hty
  refine ⟨hfail, ?_⟩
  have hstep : applyStep ⟨content, 0, false, []⟩ issue =
      ⟨content, 0, false, [issue.name ++ ": ".data ++ "Invalid line number".data]⟩ := by
    simp only [applyStep, hfail, List.nil_append]
  rw [show applyIssues content (issue :: rest) =
    (issue :: rest).foldl applyStep ⟨content, 0, false, []⟩ from rfl]
  rw [List.foldl_cons, hstep, foldl_applyStep_decomp]
  simp

/-- Witness for claim C10: a variable finding with line number 0 on a
one-line file fails with the invalid-line error and the following import
finding is still processed. -/
theorem invalid_line_fails_and_continues_witness :
    (((((testIssue .unusedVariable "a.ts".data 0 "x".data).line - 1 : Int) < 0) ∨
      (((linesOf "abc".data).length : Int) ≤
        (testIssue .unusedVariable "a.ts".data 0 "x".data).line - 1)) ∧
      (testIssue .unusedVariable "a.ts".data 0 "x".data).type ≠ IssueType.unusedRoute) ∧
    removeIssue "abc".data (testIssue .unusedVariable "a.ts".data 0 "x".data) =
      .fail "abc".data "Invalid line number".data := by
  refine ⟨⟨by decide, by decide⟩, ?_⟩
  exact (invalid_line_fails_and_continues "abc".data
    (testIssue .unusedVariable "a.ts".data 0 "x".data) [] (by decide) (by decide)).1

/-- Claim C5: the per-file scan entry point never throws outward — a caught
exception becomes exactly one synthetic finding of kind `unused-variable`
named "Analysis Error" with confidence `low` and the error text in its
description, and the surrounding multi-file loop analyzes every other file
exactly as it would have. -/
theorem analysis_error_single_synthetic (filePath rootPath relativePath msg : List Char)
    (xs ys : List ScanFile) (f : ScanFile)
    (hfp : filePath ≠ []) (hrp : rootPath ≠ []) :
    analyzeFile filePath rootPath relativePath (.readError msg) =
      [syntheticErrorIssue filePath relativePath msg] ∧
    (syntheticErrorIssue filePath relativePath msg).type = .unusedVariable ∧
    (syntheticErrorIssue filePath relativePath msg).name = "Analysis Error".data ∧
    (syntheticErrorIssue filePath relativePath msg).confidence = .low ∧
    (syntheticErrorIssue filePath relativePath msg).description =
      "Failed to analyze file: ".data ++ msg ∧
    analyzeMany rootPath (xs ++ f :: ys) =
      analyzeMany rootPath xs ++
        (analyzeFile f.filePath rootPath f.relativePath f.access ++
          analyzeMany rootPath ys) := by
  refine ⟨?_, rfl, rfl, rfl, rfl, ?_⟩
  · unfold analyzeFile
    rw [if_neg ?hcond]
    case hcond =>
      simp only [Bool.or_eq_true, decide_eq_true_eq]
      exact fun h => h.elim hfp hrp
  · unfold analyzeMany
    rw [List.flatMap_append, List.flatMap_cons]

/-- Witness for claim C5: a concrete read error yields exactly the synthetic
finding, and a concrete three-file run splits around the failing file. -/
theorem analysis_error_single_synthetic_witness :
    ("a.ts".data ≠ ([] : List Char)) ∧ ("/r".data ≠ ([] : List Char)) ∧
    analyzeFile "a.ts".data "/r".data "a.ts".data (.readError "boom".data) =
      [syntheticErrorIssue "a.ts".data "a.ts".data "boom".data] := by
  refine ⟨by decide, by decide, ?_⟩
  exact (analysis_error_single_synthetic "a.ts".data "/r".data "a.ts".data "boom".data
    [] [] ⟨"b.ts".data, "b.ts".data, .missing⟩ (by decide) (by decide)).1

/-! ### Export suppression -/

theorem capLookup_sub (rx : Rx) (content : List Char) (n : Nat) (m : MatchInfo)
    (hm : m ∈ execAll rx content) (nm : List Char) (hl : capLookup m.caps n = some nm) :
    ∃ a b, content = a ++ nm ++ b := by
  unfold capLookup at hl
  cases hf : m.caps.find? (fun p => p.1 = n) with
  | none => rw [hf] at hl; cases hl
  | some pc =>
    rw [hf] at hl
    cases hl
    exact execAll_caps_infix rx content m hm pc (List.mem_of_find?_eq_some hf)

theorem capStr_sub (rx : Rx) (content : List Char) (n : Nat) (m : MatchInfo)
    (hm : m ∈ execAll rx content) : ∃ a b, content = a ++ capStr m.caps n ++ b := by
  cases hf : capLookup m.caps n with
  | none =>
    have hz : capStr m.caps n = [] := by
      unfold capStr
      rw [hf]
      rfl
    rw [hz]
    exact ⟨content, [], by simp⟩
  | some nm =>
    have hz : capStr m.caps n = nm := by
      unfold capStr
      rw [hf]
      rfl
    rw [hz]
    exact capLookup_sub rx content n m hm nm hf

theorem isFunctionUsed_of_export (content nm : List Char)
    (hg : rxTest exportRx content = true) (hsub : ∃ a b, content = a ++ nm ++ b) :
    isFunctionUsed nm content = true := by
  unfold isFunctionUsed
  by_cases hc : jsTrim nm = []
  · rw [if_pos hc]
  · rw [if_neg hc]
    have hcs : containsSub content (jsTrim nm) = true := by
      obtain ⟨a, b, hab⟩ := hsub
      obtain ⟨x, y, hxy⟩ := jsTrim_decomp nm
      refine containsSub_complete content (jsTrim nm) ⟨a ++ x, y ++ b, ?_⟩
      rw [hab]
      conv_lhs => rw [hxy]
      simp
    rw [hg, hcs]
    rfl

theorem isComponentUsed_of_export (content nm : List Char)
    (hg : rxTest exportRx content = true) (hsub : ∃ a b, content = a ++ nm ++ b) :
    isComponentUsed nm content = true := by
  unfold isComponentUsed
  by_cases hc : jsTrim nm = []
  · rw [if_pos hc]
  · rw [if_neg hc]
    have hcs : containsSub content (jsTrim nm) = true := by
      obtain ⟨a, b, hab⟩ := hsub
      obtain ⟨x, y, hxy⟩ := jsTrim_decomp nm
      refine containsSub_complete content (jsTrim nm) ⟨a ++ x, y ++ b, ?_⟩
      rw [hab]
      conv_lhs => rw [hxy]
      simp
    rw [hg, hcs]
    rfl

theorem findUnusedFunctions_of_export (content fp rp : List Char)
    (hg : rxTest exportRx content = true) : findUnusedFunctions content fp rp = [] := by
  unfold findUnusedFunctions
  rw [List.append_eq_nil]
  constructor
  · rw [List.filterMap_eq_nil_iff]
    intro m hm
    rw [if_pos (isFunctionUsed_of_export content (capStr m.caps 1) hg
      (capStr_sub functionRx content 1 m hm))]
  · rw [List.filterMap_eq_nil_iff]
    intro m hm
    rw [if_pos (isFunctionUsed_of_export content (capStr m.caps 1) hg
      (capStr_sub arrowFunctionRx content 1 m hm))]

theorem findUnusedComponents_of_export (content fp rp : List Char)
    (hg : rxTest exportRx content = true) : findUnusedComponents content fp rp = [] := by
  unfold findUnusedComponents
  rw [List.filterMap_eq_nil_iff]
  intro m hm
  rw [if_pos (isComponentUsed_of_export content (capStr m.caps 1) hg
    (capStr_sub componentRx content 1 m hm))]

/-- Claim C9: because the "is exported" check only tests that some export
declaration matches `exportRegex` somewhere in the file and that the symbol's
name occurs anywhere in the file text — and a name captured from a
declaration always occurs in the file — a file with at least one
export-pattern match gets zero unused-function and zero unused-component
findings. -/
theorem export_match_suppresses_all (content fp rp : List Char)
    (hg : rxTest exportRx content = true) :
    findUnusedFunctions content fp rp = [] ∧ findUnusedComponents content fp rp = [] :=
  ⟨findUnusedFunctions_of_export content fp rp hg,
    findUnusedComponents_of_export content fp rp hg⟩

/-- Witness for claim C9: a file with a matching `export const` declaration
and an otherwise completely unreferenced function produces no
unused-function and no unused-component findings. -/
theorem export_match_suppresses_all_witness :
    rxTest exportRx "export const a = 1;\nfunction unusedFn() \x7b\n  return 2;\n\x7d\n".data = true ∧
    findUnusedFunctions "export const a = 1;\nfunction unusedFn() \x7b\n  return 2;\n\x7d\n".data
      "a.ts".data "a.ts".data = [] ∧
    findUnusedComponents "export const a = 1;\nfunction unusedFn() \x7b\n  return 2;\n\x7d\n".data
      "a.ts".data "a.ts".data = [] := by
  refine ⟨by decide, ?_⟩
  have h := export_match_suppresses_all
    "export const a = 1;\nfunction unusedFn() \x7b\n  return 2;\n\x7d\n".data
    "a.ts".data "a.ts".data (by decide)
  exact ⟨h.1, h.2⟩

/-- Counterexample to claim C8 as stated: `export \x7b foo \x7d;` is an export
statement of the file and contains the name `foo`, yet `foo` is reported as
an unused-function finding — an export list does not match `exportRegex`, so
textual co-occurrence with it does not suppress the finding. -/
theorem exported_via_list_still_reported :
    containsSub "function foo() \x7b\n  return 1;\n\x7d\nexport \x7b foo \x7d;\n".data
      "export \x7b foo \x7d;".data = true ∧
    containsSub "export \x7b foo \x7d;".data "foo".data = true ∧
    (∃ f ∈ findUnusedFunctions
        "function foo() \x7b\n  return 1;\n\x7d\nexport \x7b foo \x7d;\n".data
        "a.ts".data "a.ts".data,
      f.name = "foo".data ∧ f.type = IssueType.unusedFunction) := by
  refine ⟨by decide, by decide, ?_⟩
  decide

/-- Claim C8 (amended): a function or component is suppressed by the export
check when the file contains at least one export declaration matching the
scanner's export pattern (`export`, optional `default`, optional
`function/const/class/interface/type` keyword, then an identifier) and its
name occurs anywhere in the file text; co-occurrence with a non-matching
export statement such as an export list does not by itself suppress
reporting. -/
theorem export_pattern_match_suppresses_name (content fp rp nm : List Char)
    (hg : rxTest exportRx content = true) (_hocc : containsSub content nm = true) :
    (∀ f ∈ findUnusedFunctions content fp rp, f.name ≠ nm) ∧
    (∀ f ∈ findUnusedComponents content fp rp, f.name ≠ nm) := by
  rw [findUnusedFunctions_of_export content fp rp hg,
    findUnusedComponents_of_export content fp rp hg]
  exact ⟨fun f hf => absurd hf (List.not_mem_nil f), fun f hf => absurd hf (List.not_mem_nil f)⟩

/-- Witness for the amended claim C8: a file with a matching export
declaration and the name `unusedFn` present is never reported under either
scan. -/
theorem export_pattern_match_suppresses_name_witness :
    rxTest exportRx "export const a = 1;\nfunction unusedFn() \x7b\n\x7d\n".data = true ∧
    containsSub "export const a = 1;\nfunction unusedFn() \x7b\n\x7d\n".data
      "unusedFn".data = true ∧
    (∀ f ∈ findUnusedFunctions "export const a = 1;\nfunction unusedFn() \x7b\n\x7d\n".data
        "b.ts".data "b.ts".data, f.name ≠ "unusedFn".data) := by
  refine ⟨by decide, by decide, ?_⟩
  exact (export_pattern_match_suppresses_name
    "export const a = 1;\nfunction unusedFn() \x7b\n\x7d\n".data
    "b.ts".data "b.ts".data "unusedFn".data (by decide) (by decide)).1

/-- Counterexample to claim C3 as stated: `const f = (x) => x;` is a binding
whose initializer is an arrow function — the scanner's own
`arrowFunctionRegex` captures it — yet the variable scan reports it as an
unused-variable finding, because `variableRegex` has no initializer
exclusion. -/
theorem arrow_binding_reported_as_variable :
    (∃ m ∈ execAll arrowFunctionRx "const f = (x) => x;\n".data,
      capStr m.caps 1 = "f".data) ∧
    (∃ f ∈ findUnusedVariables "const f = (x) => x;\n".data "a.ts".data "a.ts".data,
      f.name = "f".data ∧ f.type = IssueType.unusedVariable) := by
  refine ⟨?_, ?_⟩
  · decide
  · decide

/-- Claim C3 (amended): the variable scan reports a `const/let/var name = ...`
binding purely by the usage check, with no function- or arrow-initializer
exclusion; in particular a binding whose initializer is an arrow function can
be reported both as an unused-function finding (by the function scan) and as
an unused-variable finding (by the variable scan) for the same declaration. -/
theorem variable_scan_double_reports_arrow :
    (∃ f ∈ findUnusedVariables "const f = (x) => x;\nrest();\n".data
        "c.tsx".data "c.tsx".data,
      f.name = "f".data ∧ f.type = IssueType.unusedVariable ∧ f.line = 1) ∧
    (∃ f ∈ findUnusedFunctions "const f = (x) => x;\nrest();\n".data
        "c.tsx".data "c.tsx".data,
      f.name = "f".data ∧ f.type = IssueType.unusedFunction ∧ f.line = 1) := by
  refine ⟨?_, ?_⟩
  · decide
  · decide

/-! ### C1: captured import names versus the post-strip word search -/

theorem grpOnly_importRx_2 : grpOnly 2 notBraceCommaSpace importRx := by
  simp [importRx, rseq, grpOnly]

theorem grpOnly_importRx_3 : grpOnly 3 notSpace importRx := by
  simp [importRx, rseq, grpOnly]

theorem notBraceCommaSpace_nonspace (c : Char) (h : notBraceCommaSpace c = true) :
    jsSpace c = false := by
  unfold notBraceCommaSpace at h
  cases hjs : jsSpace c
  · rfl
  · rw [hjs] at h; simp at h

theorem notSpace_nonspace (c : Char) (h : notSpace c = true) : jsSpace c = false := by
  unfold notSpace at h
  cases hjs : jsSpace c
  · rfl
  · rw [hjs] at h; simp at h

theorem capLookup_eq_some {caps : Caps} {n : Nat} {nm : List Char}
    (h : capLookup caps n = some nm) : ∃ pc ∈ caps, pc.1 = n ∧ pc.2 = nm := by
  unfold capLookup at h
  cases hf : caps.find? (fun p => p.1 = n) with
  | none => rw [hf] at h; simp at h
  | some p =>
    rw [hf] at h
    simp only [Option.some.injEq] at h
    have hp := List.find?_some hf
    have hmem := List.mem_of_find?_eq_some hf
    exact ⟨p, hmem, by simpa using hp, h⟩

theorem capGroup_clean (content : List Char) (n : Nat) (p : Char → Bool)
    (hg : grpOnly n p importRx) (hsp : ∀ c, p c = true → jsSpace c = false)
    (m : MatchInfo) (hm : m ∈ execAll importRx content) (nm : List Char)
    (hl : capLookup m.caps n = some nm) : jsTrim nm = nm ∧ nm ≠ [] := by
  obtain ⟨pc, hpc, hn, hv⟩ := capLookup_eq_some hl
  obtain ⟨hne, hall⟩ := execAll_grp n p importRx content hg m hm pc hpc hn
  subst hv
  refine ⟨jsTrim_all_nonspace ?_, hne⟩
  intro c hc
  exact hsp c (List.all_eq_true.mp hall c hc)

theorem importCapturedNames_clean (content nm : List Char)
    (h : nm ∈ importCapturedNames content) : jsTrim nm = nm ∧ nm ≠ [] := by
  unfold importCapturedNames at h
  rw [List.mem_flatMap] at h
  obtain ⟨m, hm, hseg⟩ := h
  rw [List.mem_append, List.mem_append] at hseg
  rcases hseg with (h1 | h2) | h3
  · split at h1
    · simp at h1
    · unfold namedImportNames at h1
      rw [List.mem_filter] at h1
      obtain ⟨hmap, hne⟩ := h1
      rw [List.mem_map] at hmap
      obtain ⟨x, _, hx⟩ := hmap
      subst hx
      exact ⟨jsTrim_idem x, by simpa using hne⟩
  · rw [List.mem_filter] at h2
    obtain ⟨ht, hne⟩ := h2
    rw [Option.mem_toList, Option.mem_def] at ht
    exact capGroup_clean content 2 notBraceCommaSpace grpOnly_importRx_2
      notBraceCommaSpace_nonspace m hm nm ht
  · rw [List.mem_filter] at h3
    obtain ⟨ht, hne⟩ := h3
    rw [Option.mem_toList, Option.mem_def] at ht
    exact capGroup_clean content 3 notSpace grpOnly_importRx_3
      notSpace_nonspace m hm nm ht

theorem isImportUsed_of_clean (nm content : List Char) (h1 : jsTrim nm = nm)
    (h2 : nm ≠ []) :
    isImportUsed nm content = rxTest (wordRx nm) (replaceAll importLineRx content) := by
  simp only [isImportUsed]
  rw [h1, if_neg h2]

theorem namedImportIssues_sound {content fp rp : List Char} {ln : Int}
    {s mp : List Char} {f : Issue} (hf : f ∈ namedImportIssues content fp rp ln s mp) :
    s ≠ [] ∧ f.name ∈ namedImportNames s ∧ isImportUsed f.name content = false ∧
      f.type = .unusedImport ∧ f.confidence = .high := by
  unfold namedImportIssues at hf
  split at hf
  · simp at hf
  · next hs =>
    rw [List.mem_filterMap] at hf
    obtain ⟨x, hx, hfx⟩ := hf
    split at hfx
    · simp at hfx
    · next hused =>
      simp only [Option.some.injEq] at hfx
      subst hfx
      refine ⟨hs, hx, ?_, rfl, rfl⟩
      cases h : isImportUsed x content
      · rfl
      · exact absurd h hused

theorem defaultImportIssues_sound {content fp rp : List Char} {ln : Int}
    {o : Option (List Char)} {mp : List Char} {f : Issue}
    (hf : f ∈ defaultImportIssues content fp rp ln o mp) :
    ∃ d, o = some d ∧ d ≠ [] ∧ f.name = d ∧ isImportUsed d content = false ∧
      f.type = .unusedImport ∧ f.confidence = .high := by
  unfold defaultImportIssues at hf
  split at hf
  · simp at hf
  · next d =>
    split at hf
    · simp at hf
    · next hd =>
      split at hf
      · simp at hf
      · next hused =>
        rw [List.mem_singleton] at hf
        subst hf
        refine ⟨d, rfl, hd, rfl, ?_, rfl, rfl⟩
        cases h : isImportUsed d content
        · rfl
        · exact absurd h (by simpa using hused)

theorem namespaceImportIssues_sound {content fp rp : List Char} {ln : Int}
    {o : Option (List Char)} {mp : List Char} {f : Issue}
    (hf : f ∈ namespaceImportIssues content fp rp ln o mp) :
    ∃ d, o = some d ∧ d ≠ [] ∧ f.name = d ∧ isImportUsed d content = false ∧
      f.type = .unusedImport ∧ f.confidence = .high := by
  unfold namespaceImportIssues at hf
  split at hf
  · simp at hf
  · next d =>
    split at hf
    · simp at hf
    · next hd =>
      split at hf
      · simp at hf
      · next hused =>
        rw [List.mem_singleton] at hf
        subst hf
        refine ⟨d, rfl, hd, rfl, ?_, rfl, rfl⟩
        cases h : isImportUsed d content
        · rfl
        · exact absurd h (by simpa using hused)

theorem findUnusedImports_sound (content fp rp : List Char) (f : Issue)
    (hf : f ∈ findUnusedImports content fp rp) :
    f.type = .unusedImport ∧ f.confidence = .high ∧
      f.name ∈ importCapturedNames content ∧ isImportUsed f.name content = false := by
  unfold findUnusedImports at hf
  rw [List.mem_flatMap] at hf
  obtain ⟨m, hm, hseg⟩ := hf
  simp only [List.mem_append] at hseg
  rcases hseg with (h1 | h2) | h3
  · obtain ⟨hs, hmem, hun, hty, hcf⟩ := namedImportIssues_sound h1
    refine ⟨hty, hcf, ?_, hun⟩
    unfold importCapturedNames
    rw [List.mem_flatMap]
    refine ⟨m, hm, ?_⟩
    simp only [List.mem_append]
    left; left
    rw [if_neg hs]
    exact hmem
  · obtain ⟨d, ho, hd, hname, hun, hty, hcf⟩ := defaultImportIssues_sound h2
    subst hname
    refine ⟨hty, hcf, ?_, hun⟩
    unfold importCapturedNames
    rw [List.mem_flatMap]
    refine ⟨m, hm, ?_⟩
    simp only [List.mem_append]
    left; right
    rw [ho]
    simp [hd]
  · obtain ⟨d, ho, hd, hname, hun, hty, hcf⟩ := namespaceImportIssues_sound h3
    subst hname
    refine ⟨hty, hcf, ?_, hun⟩
    unfold importCapturedNames
    rw [List.mem_flatMap]
    refine ⟨m, hm, ?_⟩
    simp only [List.mem_append]
    right
    rw [ho]
    simp [hd]

theorem namedImportIssues_complete (content fp rp : List Char) (ln : Int)
    (s mp nm : List Char) (hs : s ≠ []) (hnm : nm ∈ namedImportNames s)
    (hun : isImportUsed nm content = false) :
    ∃ f ∈ namedImportIssues content fp rp ln s mp, f.name = nm := by
  unfold namedImportIssues
  rw [if_neg hs]
  refine ⟨{ type := .unusedImport, filePath := fp, relativePath := rp,
            line := ln, column := 1, name := nm,
            description := "Unused named import ".data ++ quoted nm ++
              " from ".data ++ quoted mp,
            confidence := .high, category := .deadCode }, ?_, rfl⟩
  rw [List.mem_filterMap]
  refine ⟨nm, hnm, ?_⟩
  rw [hun]
  simp

theorem defaultImportIssues_complete (content fp rp : List Char) (ln : Int)
    (d mp : List Char) (hd : d ≠ []) (hun : isImportUsed d content = false) :
    ∃ f ∈ defaultImportIssues content fp rp ln (some d) mp, f.name = d := by
  simp only [defaultImportIssues]
  rw [if_neg hd, hun]
  simp

theorem namespaceImportIssues_complete (content fp rp : List Char) (ln : Int)
    (d mp : List Char) (hd : d ≠ []) (hun : isImportUsed d content = false) :
    ∃ f ∈ namespaceImportIssues content fp rp ln (some d) mp, f.name = d := by
  simp only [namespaceImportIssues]
  rw [if_neg hd, hun]
  simp

theorem findUnusedImports_complete (content fp rp nm : List Char)
    (hcap : nm ∈ importCapturedNames content)
    (hun : isImportUsed nm content = false) :
    ∃ f ∈ findUnusedImports content fp rp, f.name = nm := by
  unfold importCapturedNames at hcap
  rw [List.mem_flatMap] at hcap
  obtain ⟨m, hm, hseg⟩ := hcap
  simp only [List.mem_append] at hseg
  unfold findUnusedImports
  rcases hseg with (h1 | h2) | h3
  · split at h1
    · simp at h1
    · next hs =>
      obtain ⟨f, hf, hname⟩ := namedImportIssues_complete content fp rp
        (lineNumberAt content m.idx) (capStr m.caps 1) (capStr m.caps 4) nm hs h1 hun
      refine ⟨f, ?_, hname⟩
      rw [List.mem_flatMap]
      refine ⟨m, hm, ?_⟩
      simp only [List.mem_append]
      left; left
      exact hf
  · rw [List.mem_filter] at h2
    obtain ⟨ht, hne⟩ := h2
    rw [Option.mem_toList, Option.mem_def] at ht
    obtain ⟨f, hf, hname⟩ := defaultImportIssues_complete content fp rp
      (lineNumberAt content m.idx) nm (capStr m.caps 4) (by simpa using hne) hun
    refine ⟨f, ?_, hname⟩
    rw [List.mem_flatMap]
    refine ⟨m, hm, ?_⟩
    simp only [List.mem_append]
    left; right
    rw [ht]
    exact hf
  · rw [List.mem_filter] at h3
    obtain ⟨ht, hne⟩ := h3
    rw [Option.mem_toList, Option.mem_def] at ht
    obtain ⟨f, hf, hname⟩ := namespaceImportIssues_complete content fp rp
      (lineNumberAt content m.idx) nm (capStr m.caps 4) (by simpa using hne) hun
    refine ⟨f, ?_, hname⟩
    rw [List.mem_flatMap]
    refine ⟨m, hm, ?_⟩
    simp only [List.mem_append]
    right
    rw [ht]
    exact hf

/-- Claim C1: a name captured from an import statement (a named import, the
default import name, or the namespace name) is reported by the scanner as an
unused-import finding with confidence `high` if and only if, after stripping
every line that begins with `import` from the file text, the name does not
occur as a whole word in the remaining text. -/
theorem import_reported_iff_unused_after_strip (content fp rp nm : List Char)
    (hcap : nm ∈ importCapturedNames content) :
    (∃ f ∈ findUnusedImports content fp rp,
        f.name = nm ∧ f.type = .unusedImport ∧ f.confidence = .high) ↔
      rxTest (wordRx nm) (replaceAll importLineRx content) = false := by
  obtain ⟨hc1, hc2⟩ := importCapturedNames_clean content nm hcap
  rw [← isImportUsed_of_clean nm content hc1 hc2]
  constructor
  · rintro ⟨f, hf, hname, -, -⟩
    have hs := findUnusedImports_sound content fp rp f hf
    rw [← hname]
    exact hs.2.2.2
  · intro hun
    obtain ⟨f, hf, hname⟩ := findUnusedImports_complete content fp rp nm hcap hun
    have hs := findUnusedImports_sound content fp rp f hf
    exact ⟨f, hf, hname, hs.1, hs.2.1⟩

/-- Closed witness for C1: in `c1content` the named import `unusedA` is
captured, is absent from the stripped text, and is reported as an
unused-import finding with confidence `high`. -/
theorem import_reported_iff_unused_after_strip_witness :
    "unusedA".data ∈ importCapturedNames c1content ∧
      (∃ f ∈ findUnusedImports c1content "f.ts".data "f.ts".data,
        f.name = "unusedA".data ∧ f.type = .unusedImport ∧ f.confidence = .high) := by
  have hcap : "unusedA".data ∈ importCapturedNames c1content := by decide
  refine ⟨hcap, ?_⟩
  exact (import_reported_iff_unused_after_strip c1content "f.ts".data "f.ts".data
    "unusedA".data hcap).mpr (by decide)
